import Mathlib

/-!
Verification of the mini-lsm log-structured merge-tree storage engine.

This file gives a shallow embedding, in Lean 4, of the parts of the engine
relevant to its functional specification: byte-string ordering, the block
codec and block iterator, the bloom filter, the merge / two-merge / bounded
iterator tower, the `range_overlap` SST filter, the memtable, and the
storage-state machine (`get` / `put` / `delete` / `scan` / freeze / flush),
together with theorems settling the specification's claims.

Byte strings are modelled as `List Nat` (each element a byte value); machine
integers are modelled as `Nat` with explicit bounds or `% 2^w` where the Rust
code relies on wrapping; fallible Rust functions returning `Result` are
modelled in `Except`.
-/

namespace MiniLsm


/-- Byte strings (Rust `Bytes` / `Vec<u8>` / `&[u8]`), as lists of byte values. -/
abbrev Bytes := List Nat

/-- Unsigned lexicographic comparison of byte strings: the Rust derived `Ord`
on `[u8]` / `bytes::Bytes`, used throughout the source for key comparison. -/
def bytesCmp : Bytes → Bytes → Ordering
  | [], [] => Ordering.eq
  | [], _ :: _ => Ordering.lt
  | _ :: _, [] => Ordering.gt
  | a :: as, b :: bs =>
    if a < b then Ordering.lt
    else if b < a then Ordering.gt
    else bytesCmp as bs

/-- Boolean strict order on byte strings. -/
def bytesLtB (a b : Bytes) : Bool :=
  match bytesCmp a b with
  | Ordering.lt => true
  | _ => false

/-- Boolean non-strict order on byte strings. -/
def bytesLeB (a b : Bytes) : Bool :=
  match bytesCmp a b with
  | Ordering.gt => false
  | _ => true

/-- Comparison of `usize` values (Rust `Ord` on `usize`), as an `Ordering`. -/
def natCmp (a b : Nat) : Ordering :=
  if a < b then Ordering.lt else if b < a then Ordering.gt else Ordering.eq

/-- Model of `kv::timestamped_key::TimestampedKey`: a raw byte key together
with an in-memory timestamp (`timestamp_ms`, always 0 on the write path). -/
structure TimestampedKey where
  key : Bytes
  timestampMs : Nat
deriving DecidableEq, Repr

/-- Model of `TimestampedKey::new`, which sets `timestamp_ms: 0`. -/
def TimestampedKey.new (key : Bytes) : TimestampedKey := ⟨key, 0⟩

/-- Model of `TimestampedKey`'s handwritten `Ord`: byte key ascending, and on
equal keys the larger timestamp orders earlier (newer wins). -/
def tkCmp (a b : TimestampedKey) : Ordering :=
  (bytesCmp a.key b.key).then (natCmp b.timestampMs a.timestampMs)

/-- Model of `kv::kv_pair::KeyValuePair`. -/
structure KeyValuePair where
  key : TimestampedKey
  value : Bytes
deriving DecidableEq, Repr

/-- Model of `KeyValuePair`'s derived `Ord`: lexicographic over the fields in
declaration order, i.e. by `key` (via `tkCmp`) and then by `value` bytes. -/
def kvCmp (a b : KeyValuePair) : Ordering :=
  (tkCmp a.key b.key).then (bytesCmp a.value b.value)

/-- Model of the derived `Ord` on the merge-heap element `(KeyValuePair, usize)`:
entry first, source index second. -/
def hpCmp (a b : KeyValuePair × Nat) : Ordering :=
  (kvCmp a.1 b.1).then (natCmp a.2 b.2)

/-- Boolean non-strict order induced by a comparison function. -/
def cmpLeB {α : Type} (c : α → α → Ordering) (a b : α) : Bool :=
  match c a b with
  | Ordering.gt => false
  | _ => true

/-- Boolean strict order induced by a comparison function. -/
def cmpLtB {α : Type} (c : α → α → Ordering) (a b : α) : Bool :=
  match c a b with
  | Ordering.lt => true
  | _ => false

/-- Abbreviation: non-strict order on key-value pairs (derived `Ord`). -/
abbrev kvLeB (a b : KeyValuePair) : Bool := cmpLeB kvCmp a b

/-- Abbreviation: strict order on key-value pairs (derived `Ord`), i.e. the
`<` used by `TwoMergeIterator`. -/
abbrev kvLtB (a b : KeyValuePair) : Bool := cmpLtB kvCmp a b

/-- Abbreviation: non-strict order on merge-heap elements `(entry, source)`. -/
abbrev hpLeB (a b : KeyValuePair × Nat) : Bool := cmpLeB hpCmp a b

/-- Model of `std::ops::Bound<&[u8]>` as used by the scan API. -/
inductive Bound where
  | included (key : Bytes)
  | excluded (key : Bytes)
  | unbounded
deriving DecidableEq, Repr

/-- Model of `utils::range_overlap`.  `disjointLesser` is the check that the
query range lies entirely below the target range, `disjointGreater` that it
lies entirely above; the comparisons mirror the source arm by arm
(`upper < target_lower`, `upper <= target_lower`, `lower >= target_upper`,
`lower > target_upper`). -/
def range_overlap (queryLower queryUpper : Bound)
    (targetLower targetUpper : TimestampedKey) : Bool :=
  let disjointLesser :=
    match queryUpper with
    | Bound.included upper => bytesLtB upper targetLower.key
    | Bound.excluded upper => bytesLeB upper targetLower.key
    | Bound.unbounded => false
  let disjointGreater :=
    match queryLower with
    | Bound.included lower => bytesLeB targetUpper.key lower
    | Bound.excluded lower => bytesLtB targetUpper.key lower
    | Bound.unbounded => false
  !disjointLesser && !disjointGreater

/-- The overlap predicate as the specification words it: the query range
intersects the closed target range `[targetLower, targetUpper]`, i.e.
`not (b < c or a > d)` for query `[a, b]` and target `[c, d]`, with an
excluded query upper bound making `b = c` disjoint and an excluded query
lower bound making `a = d` disjoint.  Written for comparison against
`range_overlap`; note the two functions differ in the `disjointGreater`
comparisons for the query lower bound. -/
def rangeOverlapSpec (queryLower queryUpper : Bound)
    (targetLower targetUpper : Bytes) : Bool :=
  let disjointLesser :=
    match queryUpper with
    | Bound.included upper => bytesLtB upper targetLower
    | Bound.excluded upper => bytesLeB upper targetLower
    | Bound.unbounded => false
  let disjointGreater :=
    match queryLower with
    | Bound.included lower => bytesLtB targetUpper lower
    | Bound.excluded lower => bytesLeB targetUpper lower
    | Bound.unbounded => false
  !disjointLesser && !disjointGreater

/- ----------------------------------------------------------------------
Bloom filter (`table/bloom.rs`).
---------------------------------------------------------------------- -/

/-- Model of `table::bloom::BloomFilter`: a bit array plus the number of hash
probes `k`. -/
structure BloomFilter where
  bitVec : List Bool
  k : Nat
deriving DecidableEq, Repr

/-- Model of the probe-index loop in `BloomFilter::get_indices_for_key`:
`km_hash` starts at `h1` and each iteration records `km_hash % m` and then
advances by `km_hash.wrapping_add(h2)` (wrapping 32-bit addition, modelled
with an explicit `% 2^32`). -/
def kmIndices : Nat → Nat → Nat → Nat → List Nat
  | 0, _, _, _ => []
  | Nat.succ k, kmHash, h2, m => kmHash % m :: kmIndices k ((kmHash + h2) % 2 ^ 32) h2 m

/-- Model of `BloomFilter::get_indices_for_key`.  The 64-bit hash of the key
comes from `xxh3_64` of the external `xxhash_rust` crate (not code of this
repository), so it is a parameter `h64` here, reduced `% 2^64` to model `u64`;
the split into `h1` (high 32 bits) and `h2` (low 32 bits) and the
Kirsch-Mitzenmacher loop follow the source. -/
def get_indices_for_key (h64 : Bytes → Nat) (key : Bytes) (m : Nat) (k : Nat) : List Nat :=
  let hash := h64 key % 2 ^ 64
  kmIndices k (hash / 2 ^ 32) (hash % 2 ^ 32) m

/-- Model of `bit_vec.set(i, true)`.  `List.set` ignores an out-of-range
index; the theorems below only apply it in range (`i < m`), matching the
panic-free executions of the Rust code. -/
def setBit (bv : List Bool) (i : Nat) : List Bool := bv.set i true

/-- Setting every index of a probe list, as the inner loop of `from_keys`. -/
def setBits (bv : List Bool) (idxs : List Nat) : List Bool := idxs.foldl setBit bv

/-- Model of `BloomFilter::from_keys`, parametric in the bit-array length `m`
and the probe count `k`.  In the source these are computed from `keys.len()`
by the floating-point formulas of `get_bit_arr_len` and
`get_num_hash_functions`; floating point is outside this embedding, so `m`
and `k` are parameters (as is the external hash `h64`).  The bit array starts
as `m` zero bits and the per-key bit-setting loop follows the source. -/
def from_keys (h64 : Bytes → Nat) (m k : Nat) (keys : List TimestampedKey) : BloomFilter :=
  { bitVec := keys.foldl
      (fun bv key => setBits bv (get_indices_for_key h64 key.key m k))
      (List.replicate m false),
    k := k }

/-- Model of `BloomFilter::maybe_contains`: probe the `k` indices of the key
(with `m = bit_vec.len()`) and return false iff some probed bit is zero
(the source loop returns `false` early on the first zero bit).  An
out-of-range bit read (a panic in Rust) is modelled as reading `false`. -/
def maybe_contains (h64 : Bytes → Nat) (bf : BloomFilter) (key : Bytes) : Bool :=
  (get_indices_for_key h64 key bf.bitVec.length bf.k).all (fun i => bf.bitVec.getD i false)

/- ----------------------------------------------------------------------
Block codec (`block.rs`, `block/builder.rs`, `block/iterator.rs`).
---------------------------------------------------------------------- -/

/-- The engine's error sum (`anyhow::Error` messages in the source):
`keyNotFound` for `delete` of a missing key, `memtableImmutable` for writes or
re-freezes of a frozen memtable, `blockFull` for a block-builder overflow, and
`sizeOverflow` for a length that does not fit in `u16`. -/
inductive StorageError where
  | keyNotFound
  | memtableImmutable
  | blockFull
  | sizeOverflow
deriving DecidableEq, Repr

/-- Big-endian byte pair of a `u16` value (`u16::to_be_bytes`); the argument
is reduced modulo 2^16 positionwise, matching the `u16` type of the source. -/
def u16be (n : Nat) : List Nat := [n / 256 % 256, n % 256]

/-- Model of `u16::from_be_bytes([a, b])` on byte values. -/
def u16FromBe (a b : Nat) : Nat := 256 * a + b

/-- Model of `block::Block`: entry data, per-entry offsets, end-of-data
offset. -/
structure Block where
  data : List Nat
  offsets : List Nat
  endOfDataOffset : Nat
deriving DecidableEq, Repr

/-- Model of `Block::encode`: data, then each offset as big-endian `u16`,
then the end-of-data offset as big-endian `u16`. -/
def Block.encode (b : Block) : List Nat :=
  b.data ++ (b.offsets.map u16be).flatten ++ u16be b.endOfDataOffset

/-- Decoding of the offset region: `chunks_exact(2)` + `u16::from_be_bytes`;
an odd trailing byte is dropped, as `chunks_exact` does. -/
def decodeU16Chunks : List Nat → List Nat
  | a :: b :: rest => u16FromBe a b :: decodeU16Chunks rest
  | _ => []

/-- Model of `Block::decode`: read the trailing two bytes as the end-of-data
offset, split the data and offset regions there, and decode the offsets.
Rust's slice indexing panics when out of range; here reads use `getD`/`take`/
`drop` defaults, and the round-trip theorem only applies `decode` to
well-formed encodings, where the two agree. -/
def Block.decode (encoded : List Nat) : Block :=
  let n := encoded.length
  let endOff := u16FromBe (encoded.getD (n - 2) 0) (encoded.getD (n - 1) 0)
  { data := encoded.take endOff,
    offsets := decodeU16Chunks ((encoded.drop endOff).take (n - 2 - endOff)),
    endOfDataOffset := endOff }

/-- Length of the longest common prefix of two byte strings: the source's
`iter().zip(first_key).take_while(|(x, y)| *x == y).count()`. -/
def commonPrefixLen : Bytes → Bytes → Nat
  | a :: as, b :: bs => if a = b then commonPrefixLen as bs + 1 else 0
  | _, _ => 0

/-- Model of `block::builder::BlockBuilder`. -/
structure BlockBuilder where
  data : List Nat
  offsets : List Nat
  currentOffset : Nat
  blockSize : Nat
  firstKey : Bytes
deriving DecidableEq, Repr

/-- Model of `BlockBuilder::new`. -/
def BlockBuilder.new (blockSize : Nat) : BlockBuilder :=
  ⟨[], [], 0, blockSize, []⟩

/-- Model of `BlockBuilder::is_empty`. -/
def BlockBuilder.is_empty (b : BlockBuilder) : Bool := b.data.length == 0

/-- Model of `BlockBuilder::get_block_size`: data bytes plus two bytes per
offset plus the two-byte end-of-data offset. -/
def BlockBuilder.get_block_size (b : BlockBuilder) : Nat :=
  b.data.length + 2 * b.offsets.length + 2

/-- Model of `BlockBuilder::get_block_size_with_kv`: the projected encoded
size if the entry were added. -/
def BlockBuilder.get_block_size_with_kv (b : BlockBuilder) (kv : KeyValuePair) : Nat :=
  let blockSize := b.get_block_size
  if blockSize = 0 then 2 + kv.key.key.length + 2 + kv.value.length + 2
  else blockSize + 4 + kv.key.key.length + 2 + kv.value.length + 2

/-- Model of `BlockBuilder::add`.  The first entry (empty `first_key`) is
stored as `u16 key_len | key | u16 value_len | value`; subsequent entries as
`u16 overlap_len | u16 rest_len | rest | u16 value_len | value` against the
block's first key.  `u16::try_from` failures are `sizeOverflow` errors; an
overflow of the `u16` accumulator `current_offset` (which would abort rather
than return in Rust) is likewise modelled as `sizeOverflow`, so a successful
`add` corresponds exactly to a normal return of the source. -/
def BlockBuilder.add (b : BlockBuilder) (kv : KeyValuePair) : Except StorageError BlockBuilder :=
  if !b.is_empty && decide (b.get_block_size_with_kv kv > b.blockSize) then
    Except.error StorageError.blockFull
  else if 65535 < kv.key.key.length || 65535 < kv.value.length then
    Except.error StorageError.sizeOverflow
  else
    let keyAsBytes :=
      if b.firstKey.length = 0 then u16be kv.key.key.length ++ kv.key.key
      else
        let ov := commonPrefixLen kv.key.key b.firstKey
        u16be ov ++ u16be (kv.key.key.length - ov) ++ kv.key.key.drop ov
    let kvAsBytes := keyAsBytes ++ u16be kv.value.length ++ kv.value
    if 65535 < b.currentOffset + kvAsBytes.length then
      Except.error StorageError.sizeOverflow
    else
      Except.ok { b with
        firstKey := if b.firstKey.length = 0 then kv.key.key else b.firstKey,
        offsets := b.offsets ++ [b.currentOffset],
        currentOffset := b.currentOffset + kvAsBytes.length,
        data := b.data ++ kvAsBytes }

/-- Model of `BlockBuilder::build`. -/
def BlockBuilder.build (b : BlockBuilder) : Block :=
  ⟨b.data, b.offsets, b.currentOffset⟩

/-- Folding `BlockBuilder::add` over a list of entries. -/
def addAll (b : BlockBuilder) : List KeyValuePair → Except StorageError BlockBuilder
  | [] => Except.ok b
  | kv :: rest =>
    match b.add kv with
    | Except.error e => Except.error e
    | Except.ok b2 => addAll b2 rest

/-- Building a block from a list of entries: repeated `add` from a fresh
builder, then `build`. -/
def buildBlockList (blockSize : Nat) (entries : List KeyValuePair) :
    Except StorageError Block :=
  Except.map BlockBuilder.build (addAll (BlockBuilder.new blockSize) entries)

/-- Modelled from the spec: `Block::get_first_key`, which the block iterator
calls but which is absent from the given source files (only its call sites
are present).  Per the layout of specification section 4.1 the first entry
begins with `u16 key_len | key_bytes` at data offset 0, so the first key is
read from there. -/
def Block.get_first_key (b : Block) : Bytes :=
  (b.data.drop 2).take (u16FromBe (b.data.getD 0 0) (b.data.getD 1 0))

/-- Model of `BlockIterator::parse_current_kv`: `none` when the index sits at
`offsets.len()`; otherwise parse the entry at `offsets[current_index]`,
reconstructing a non-first key as `first_key[..overlap_len] ++ rest`.
Out-of-range reads (panics in Rust) are modelled by `getD`/`take`/`drop`
defaults; the theorems only invoke them in range. -/
def parseCurrentKv (block : Block) (firstKey : Bytes) (currentIndex : Nat) :
    Option KeyValuePair :=
  if currentIndex = block.offsets.length then none
  else
    let currentOffset := block.offsets.getD currentIndex 0
    if currentIndex = 0 then
      let keySize := u16FromBe (block.data.getD currentOffset 0)
        (block.data.getD (currentOffset + 1) 0)
      let keyVec := (block.data.drop (currentOffset + 2)).take keySize
      let valueContentsOffset := currentOffset + 2 + keySize + 2
      let valueSize := u16FromBe (block.data.getD (valueContentsOffset - 2) 0)
        (block.data.getD (valueContentsOffset - 1) 0)
      some ⟨TimestampedKey.new keyVec,
        (block.data.drop valueContentsOffset).take valueSize⟩
    else
      let overlapLen := u16FromBe (block.data.getD currentOffset 0)
        (block.data.getD (currentOffset + 1) 0)
      let restLen := u16FromBe (block.data.getD (currentOffset + 2) 0)
        (block.data.getD (currentOffset + 3) 0)
      let keyVec := firstKey.take overlapLen ++
        (block.data.drop (currentOffset + 4)).take restLen
      let valueContentsOffset := currentOffset + 4 + restLen + 2
      let valueSize := u16FromBe (block.data.getD (valueContentsOffset - 2) 0)
        (block.data.getD (valueContentsOffset - 1) 0)
      some ⟨TimestampedKey.new keyVec,
        (block.data.drop valueContentsOffset).take valueSize⟩

/-- Repeated `BlockIterator::next` from index `i`: emit the parsed current
entry and advance, until `parse_current_kv` returns `none`. -/
def blockIterateAux (block : Block) (firstKey : Bytes) : Nat → Nat → List KeyValuePair
  | 0, _ => []
  | Nat.succ fuel, i =>
    match parseCurrentKv block firstKey i with
    | none => []
    | some kv => kv :: blockIterateAux block firstKey fuel (i + 1)

/-- Iterating a whole block from `create_and_seek_to_first`: the stream of
entries produced by repeated `next`. -/
def blockIterate (block : Block) : List KeyValuePair :=
  blockIterateAux block block.get_first_key (block.offsets.length + 1) 0

/-- Model of the binary-search loop of `BlockIterator::seek_to_key`
(`lo`/`hi` bounds, midpoint probe, early return on an exact match), with
explicit fuel; the source loop terminates because `hi - lo` shrinks, and the
theorems supply `fuel ≥ hi - lo`.  The `none` branch of the probe is
unreachable for `mid < offsets.len()` (the source `expect`s there). -/
def seekLoop (block : Block) (firstKey : Bytes) (key : Bytes) :
    Nat → Nat → Nat → Nat
  | 0, lo, hi => (lo + hi) / 2
  | Nat.succ fuel, lo, hi =>
    if lo < hi then
      let mid := (lo + hi) / 2
      match parseCurrentKv block firstKey mid with
      | none => (lo + hi) / 2
      | some kv =>
        match bytesCmp kv.key.key key with
        | Ordering.lt => seekLoop block firstKey key fuel (mid + 1) hi
        | Ordering.gt => seekLoop block firstKey key fuel lo mid
        | Ordering.eq => mid
    else (lo + hi) / 2

/-- Model of `BlockIterator::seek_to_key` on a block: the index at which the
cursor lands (`current_index` after the call).  The initial search range is
`(0, offsets.len() - 1)` as in the source; the fuel `offsets.len()` exceeds
the initial `hi - lo`, so the loop runs to completion exactly as in Rust. -/
def seek_to_key (block : Block) (key : Bytes) : Nat :=
  seekLoop block block.get_first_key key block.offsets.length 0 (block.offsets.length - 1)

/-- The encoded form of a block's first entry:
`u16 key_len | key | u16 value_len | value`. -/
def encFirstEntry (kv : KeyValuePair) : List Nat :=
  u16be kv.key.key.length ++ kv.key.key ++ u16be kv.value.length ++ kv.value

/-- The encoded form of a subsequent entry, prefix-compressed against the
block's first key: `u16 overlap_len | u16 rest_len | rest | u16 value_len |
value`. -/
def encSubEntry (firstKey : Bytes) (kv : KeyValuePair) : List Nat :=
  u16be (commonPrefixLen kv.key.key firstKey) ++
    u16be (kv.key.key.length - commonPrefixLen kv.key.key firstKey) ++
    kv.key.key.drop (commonPrefixLen kv.key.key firstKey) ++
    u16be kv.value.length ++ kv.value

/-- The offsets of the subsequent entries of a block, starting at byte
position `start`. -/
def offsetsFrom (firstKey : Bytes) (start : Nat) : List KeyValuePair → List Nat
  | [] => []
  | kv :: rest => start :: offsetsFrom firstKey (start + (encSubEntry firstKey kv).length) rest

/-- Layout invariant of a block builder that has accepted the entries
`kv0 :: rest` in order: the data region is the first-entry encoding of `kv0`
followed by the prefix-compressed encodings of `rest`, the offsets are the
corresponding prefix sums, `current_offset` tracks the data length, the data
fits in `u16`, and all entry sizes fit in `u16`. -/
structure BuilderInv (b : BlockBuilder) (kv0 : KeyValuePair)
    (rest : List KeyValuePair) : Prop where
  hfk : b.firstKey = kv0.key.key
  hdata : b.data = encFirstEntry kv0 ++ (rest.map (encSubEntry kv0.key.key)).flatten
  hoffs : b.offsets = 0 :: offsetsFrom kv0.key.key (encFirstEntry kv0).length rest
  hcur : b.currentOffset = b.data.length
  hbound : b.data.length ≤ 65535
  hlens : ∀ kv ∈ kv0 :: rest, kv.key.key.length ≤ 65535 ∧ kv.value.length ≤ 65535

/-- Decidable equality for `Except`, needed to evaluate builder results in
witnesses. -/
instance {e a : Type} [DecidableEq e] [DecidableEq a] : DecidableEq (Except e a) :=
  fun x y =>
  match x, y with
  | Except.ok v, Except.ok w =>
    if h : v = w then isTrue (by rw [h]) else isFalse (fun hc => h (Except.ok.inj hc))
  | Except.error v, Except.error w =>
    if h : v = w then isTrue (by rw [h]) else isFalse (fun hc => h (Except.error.inj hc))
  | Except.ok _, Except.error _ => isFalse (fun hc => Except.noConfusion hc)
  | Except.error _, Except.ok _ => isFalse (fun hc => Except.noConfusion hc)

/-- Concrete entries for witnesses: ("k1", "v1") and ("k2", "v2") as byte
lists, mirroring the repository's own block tests. -/
def c4Entries : List KeyValuePair :=
  [⟨TimestampedKey.new [107, 49], [118, 49]⟩, ⟨TimestampedKey.new [107, 50], [118, 50]⟩]

/-- The block built from `c4Entries` with target size 32 (the test's layout:
first entry verbatim, second entry with overlap 1 and rest "2"). -/
def c4Block : Block :=
  ⟨[0, 2, 107, 49, 0, 2, 118, 49, 0, 1, 0, 1, 50, 0, 2, 118, 50], [0, 8], 17⟩

/-- The index of the first entry of `S` whose key is ≥ `key` in unsigned
lexicographic order (the lower-bound position); equals `S.length` when every
key of `S` is < `key`. -/
def lowerBound (key : Bytes) : List KeyValuePair → Nat
  | [] => 0
  | kv :: tl => if bytesLtB kv.key.key key then lowerBound key tl + 1 else 0

/-- A single-entry block built from key [97] with value [1], used to exhibit
the landing behaviour of `seek_to_key` past the last key. -/
def c5Entries : List KeyValuePair := [⟨TimestampedKey.new [97], [1]⟩]

/-- The block the builder produces from `c5Entries` (any target size ≥ its
8-byte encoded form). -/
def c5Block : Block := ⟨[0, 1, 97, 0, 1, 1], [0], 6⟩

/- ----------------------------------------------------------------------
Merge iterator (`iterator/merge_iterator.rs`).

`MergeIterator` holds a min-heap of `Reverse<(KeyValuePair, usize)>` — the
current entry of each non-exhausted source together with its source index,
ordered by the derived tuple `Ord` (entry first — key, then timestamp
reversed, then value bytes — and source index second).  `new` primes the
heap with one `next()` per source; `next` pops the heap minimum, advances
the popped source, reinserts its next entry if any, and yields the popped
entry.  The model below represents the sources by their un-consumed
suffixes; the heap's content is then exactly the heads of the non-empty
suffixes tagged with their indices, and popping the minimum is a
deterministic function because all tags differ.
---------------------------------------------------------------------- -/

/-- All entries of the sources, each tagged with its source index (indices
starting at `off`): the multiset contract of the merge. -/
def taggedFrom (off : Nat) : List (List KeyValuePair) → List (KeyValuePair × Nat)
  | [] => []
  | s :: rest => s.map (fun kv => (kv, off)) ++ taggedFrom (off + 1) rest

/-- The heap content: the current head of each non-exhausted source, tagged
with its source index (indices starting at `off`). -/
def headsFrom (off : Nat) : List (List KeyValuePair) → List (KeyValuePair × Nat)
  | [] => []
  | s :: rest =>
    (match s with
     | [] => []
     | kv :: _ => [(kv, off)]) ++ headsFrom (off + 1) rest

/-- The minimum of a list of heap elements in the derived
`(KeyValuePair, usize)` order; `none` iff the heap is empty.  All elements
carry distinct source indices, so the minimum is unique and this function is
exactly `BinaryHeap::pop` under `Reverse`. -/
def heapMinAux : List (KeyValuePair × Nat) → Option (KeyValuePair × Nat)
  | [] => none
  | x :: rest =>
    match heapMinAux rest with
    | none => some x
    | some y => if hpLeB x y then some x else some y

/-- The heap minimum of the current source suffixes. -/
def mergeHeapMin (streams : List (List KeyValuePair)) : Option (KeyValuePair × Nat) :=
  heapMinAux (headsFrom 0 streams)

/-- Advancing source `i` (`iterators_to_merge[index].next()`). -/
def advance (streams : List (List KeyValuePair)) (i : Nat) : List (List KeyValuePair) :=
  streams.set i (streams.getD i []).tail

/-- The stream of `(entry, source_index)` pairs popped by repeated
`MergeIterator::next`, with explicit fuel (each step removes one entry, so
the total entry count bounds the iteration). -/
def mergeAllTagged : Nat → List (List KeyValuePair) → List (KeyValuePair × Nat)
  | 0, _ => []
  | Nat.succ fuel, streams =>
    match mergeHeapMin streams with
    | none => []
    | some (kv, i) => (kv, i) :: mergeAllTagged fuel (advance streams i)

/-- The total number of entries over all sources. -/
def totalLen (streams : List (List KeyValuePair)) : Nat :=
  (streams.map List.length).sum

/-- The entry stream of `MergeIterator` over the given sources. -/
def mergeAll (streams : List (List KeyValuePair)) : List KeyValuePair :=
  (mergeAllTagged (totalLen streams) streams).map Prod.fst

/-- Two single-entry sources with the same key [107] and the same timestamp
0, but different values: source 0 holds value [98] ("b"), source 1 holds
value [97] ("a"). -/
def c6Streams : List (List KeyValuePair) :=
  [[⟨TimestampedKey.new [107], [98]⟩], [⟨TimestampedKey.new [107], [97]⟩]]

/-- Two sorted single-entry sources for the C6 witness. -/
def c6SortedStreams : List (List KeyValuePair) :=
  [[⟨TimestampedKey.new [107, 50], [1]⟩], [⟨TimestampedKey.new [107, 49], [2]⟩]]

/- ----------------------------------------------------------------------
Memtable (`memory/memtable.rs`) and storage state (`state.rs`).
---------------------------------------------------------------------- -/

/-- Model of `memory::memtable::MemTable`.  The concurrent
`crossbeam_skiplist::SkipMap<Bytes, Bytes>` is an external crate and is
modelled by its single-threaded observable contract: an association list
kept strictly sorted by unsigned-lexicographic key order.  `sizeBytes` is
the `size_bytes: AtomicUsize` accumulator and `mutableFlag` the
`mutable: AtomicBool` flag. -/
structure MemTable where
  id : Nat
  entries : List (Bytes × Bytes)
  sizeBytes : Nat
  mutableFlag : Bool
deriving DecidableEq, Repr

/-- `MemTable::new`. -/
def MemTable.new (id : Nat) : MemTable := ⟨id, [], 0, true⟩

/-- `SkipMap::insert` on the sorted-association-list model: ordered insert
replacing an existing binding for the key. -/
def skipInsert : List (Bytes × Bytes) → Bytes → Bytes → List (Bytes × Bytes)
  | [], k, v => [(k, v)]
  | (k2, v2) :: rest, k, v =>
    match bytesCmp k k2 with
    | Ordering.lt => (k, v) :: (k2, v2) :: rest
    | Ordering.eq => (k, v) :: rest
    | Ordering.gt => (k2, v2) :: skipInsert rest k v

/-- `SkipMap::get` on the model. -/
def skipGet : List (Bytes × Bytes) → Bytes → Option Bytes
  | [], _ => none
  | (k2, v2) :: rest, k => if k = k2 then some v2 else skipGet rest k

/-- `MemTable::get`. -/
def MemTable.get (m : MemTable) (k : Bytes) : Option Bytes := skipGet m.entries k

/-- `MemTable::put`: fails on an immutable table; otherwise inserts and adds
`key.len() + value.len()` to the size counter unconditionally — also when
the key was already present and its old binding is replaced. -/
def MemTable.put (m : MemTable) (k v : Bytes) : Except StorageError MemTable :=
  if m.mutableFlag = false then Except.error StorageError.memtableImmutable
  else Except.ok { m with entries := skipInsert m.entries k v,
                          sizeBytes := m.sizeBytes + (k.length + v.length) }

/-- `MemTable::freeze`: the compare-exchange from `true` to `false` succeeds
exactly on a mutable table. -/
def MemTable.freeze (m : MemTable) : Except StorageError MemTable :=
  if m.mutableFlag then Except.ok { m with mutableFlag := false }
  else Except.error StorageError.memtableImmutable

/--Lower-bound membership test of the skip map's `range(bound)`. -/
def inLower (lower : Bound) (k : Bytes) : Bool :=
  match lower with
  | Bound.included lk => bytesLeB lk k
  | Bound.excluded lk => bytesLtB lk k
  | Bound.unbounded => true

/-- Upper-bound membership test of the skip map's `range(bound)`. -/
def inUpper (upper : Bound) (k : Bytes) : Bool :=
  match upper with
  | Bound.included uk => bytesLeB k uk
  | Bound.excluded uk => bytesLtB k uk
  | Bound.unbounded => true

/-- The `KeyValuePair` a memtable or SST iterator wraps around a raw entry:
a fresh timestamp-0 key via `TimestampedKey::new` plus the value. -/
def toKV (e : Bytes × Bytes) : KeyValuePair := ⟨TimestampedKey.new e.1, e.2⟩

/-- `MemTable::scan` / `MemTableIterator`: the skip map's `range(bound)`
iterator, materialised. -/
def MemTable.scan (m : MemTable) (lower upper : Bound) : List KeyValuePair :=
  (m.entries.filter (fun e => inLower lower e.1 && inUpper upper e.1)).map toKV

/-- An L0 `Sst` at the granularity the storage layer observes: its id and
its ordered entries.  C4 established that block building, encoding,
decoding and iteration reproduce the builder's input exactly, so the
on-disk block representation is collapsed here. -/
structure SstModel where
  id : Nat
  entries : List (Bytes × Bytes)
deriving DecidableEq, Repr

/-- `Sst::get_first_key`: the first key of the first block, i.e. the first
entry's key (the source `expect`s a non-empty SST; the model defaults to
`[]`, and the theorems only reach it on non-empty SSTs). -/
def SstModel.get_first_key (t : SstModel) : Bytes := (t.entries.map Prod.fst).headD []

/-- `Sst::get_last_key`: the last key of the last block, i.e. the last
entry's key (same non-emptiness remark as `get_first_key`). -/
def SstModel.get_last_key (t : SstModel) : Bytes := (t.entries.map Prod.fst).getLastD []

/-- `Sst::maybe_contains_key`.  The bloom-filter conjunct is modelled as
`true`: C8 proves `maybe_contains` has no false negatives, and a false
positive only lets control reach the subsequent seek, whose landed key is
re-checked for exact equality before it is used. -/
def SstModel.maybe_contains_key (t : SstModel) (k : Bytes) : Bool :=
  bytesLeB t.get_first_key k && bytesLeB k t.get_last_key

/-- Modelled from the spec: `SSTIterator::create_and_seek_to_key` followed
by `peek` lands on the first entry whose key is `>= k` (spec section 4.8);
`src/src/table/iterator.rs` in this snapshot is a stale pre-rename version
(it names the struct `SST` and calls a two-argument `build`, neither of
which exists against `table.rs`), so the seek is modelled from the spec at
the entries level. -/
def sstSeekToKey (entries : List (Bytes × Bytes)) (k : Bytes) : Option (Bytes × Bytes) :=
  entries.find? (fun e => bytesLeB k e.1)

/-- Modelled from the spec, like `sstSeekToKey`: the stream of the SST
iterator from `create_and_seek_to_key` onwards — the suffix starting at the
first entry with key `>= k`. -/
def sstFromKey (entries : List (Bytes × Bytes)) (k : Bytes) : List (Bytes × Bytes) :=
  entries.dropWhile (fun e => bytesLtB e.1 k)

/-- The per-SST lower-bound positioning of `StorageState::scan`: an included
bound seeks to the key; an excluded bound additionally steps past an exact
match (`peek().is_some_and(|kv| kv.key.get_key() == lower_key)` then
`next()`); unbounded seeks to the first entry. -/
def sstScanFrom (entries : List (Bytes × Bytes)) (lower : Bound) : List (Bytes × Bytes) :=
  match lower with
  | Bound.included lk => sstFromKey entries lk
  | Bound.excluded lk =>
    match sstFromKey entries lk with
    | [] => []
    | e :: rest => if e.1 = lk then rest else e :: rest
  | Bound.unbounded => entries

/-- `BoundedIterator`: yields from the sub-iterator while the peeked key is
within the upper bound (`TimestampedKey` comparison against
`TimestampedKey::new(bound)`), and stops for good at the first key beyond
it. -/
def boundedTake (upper : Bound) (l : List KeyValuePair) : List KeyValuePair :=
  match upper with
  | Bound.included uk => l.takeWhile (fun kv => cmpLeB tkCmp kv.key (TimestampedKey.new uk))
  | Bound.excluded uk => l.takeWhile (fun kv => cmpLtB tkCmp kv.key (TimestampedKey.new uk))
  | Bound.unbounded => l

/-- `TwoMergeIterator` materialised, with explicit fuel so that the kernel
can evaluate it: yields from X when `x.peek() < y.peek()` in `KeyValuePair`
order, otherwise from Y. -/
def twoMergeFuel : Nat → List KeyValuePair → List KeyValuePair → List KeyValuePair
  | 0, _, _ => []
  | _ + 1, [], ys => ys
  | _ + 1, x :: xs, [] => x :: xs
  | fuel + 1, x :: xs, y :: ys =>
    if kvLtB x y then x :: twoMergeFuel fuel xs (y :: ys)
    else y :: twoMergeFuel fuel (x :: xs) ys

/-- `TwoMergeIterator::new(x, y)` run to exhaustion. -/
def twoMerge (xs ys : List KeyValuePair) : List KeyValuePair :=
  twoMergeFuel (xs.length + ys.length) xs ys

/-- The `TOMBSTONE` constant of `state.rs`: the empty byte string. -/
def TOMBSTONE : Bytes := []

/-- `StorageStateProtected` together with the `sst_counter` of
`StorageState`.  `frozenMemtables` and `ssts` are newest-first like the
source `VecDeque`s; `l0_sst_ids` is always `ssts.map id` and is omitted. -/
structure StorageState where
  currentMemtable : MemTable
  frozenMemtables : List MemTable
  ssts : List SstModel
  sstCounter : Nat
deriving DecidableEq, Repr

/-- Of `StorageStateOptions`, only `sst_max_size_bytes` is consulted by the
modelled operations; the block/cache sizes, the path and the memtable limit
shape on-disk layout, caching and the background flush thread, which the
model abstracts. -/
structure StorageStateOptions where
  sstMaxSizeBytes : Nat
deriving DecidableEq, Repr

/-- `StorageState::open` on an empty directory: a fresh mutable memtable
whose id is `fetch_add`-ed from the counter (leaving the counter at 1), no
frozen memtables, no SSTs. -/
def initState : StorageState :=
  { currentMemtable := MemTable.new 0, frozenMemtables := [], ssts := [], sstCounter := 1 }

/-- The frozen-memtable loop of `StorageState::get`: newest first, first
hit breaks. -/
def findFrozen : List MemTable → Bytes → Option Bytes
  | [], _ => none
  | m :: rest, k =>
    match m.get k with
    | some v => some v
    | none => findFrozen rest k

/-- The SST loop of `StorageState::get`: skip SSTs failing
`maybe_contains_key`; otherwise seek to the key and, when the landed key
matches exactly, return its value, else continue with the older SSTs. -/
def sstFind : List SstModel → Bytes → Option Bytes
  | [], _ => none
  | t :: rest, k =>
    if t.maybe_contains_key k then
      match sstSeekToKey t.entries k with
      | some e => if e.1 = k then some e.2 else sstFind rest k
      | none => sstFind rest k
    else sstFind rest k

/-- `StorageState::get`: current memtable, then frozen memtables newest
first; a memtable hit that is the tombstone answers `none` and shadows
everything older; otherwise the L0 SSTs newest first, with the same
tombstone filtering on the found value. -/
def StorageState.get (s : StorageState) (k : Bytes) : Option Bytes :=
  match (match s.currentMemtable.get k with
         | some v => some v
         | none => findFrozen s.frozenMemtables k) with
  | some v => if v = TOMBSTONE then none else some v
  | none =>
    match sstFind s.ssts k with
    | some v => if v = TOMBSTONE then none else some v
    | none => none

/-- `StorageState::freeze_memtable`: a fresh memtable takes the next id
from the counter, the current memtable is frozen and pushed to the front of
the frozen queue.  (In the source the counter is bumped just before the
freeze; the freeze of the always-mutable current memtable never fails on
the reachable states, so folding the bump into the success branch is
observationally equal.) -/
def StorageState.freezeMemtable (s : StorageState) : Except StorageError StorageState :=
  match s.currentMemtable.freeze with
  | Except.error e => Except.error e
  | Except.ok frozen =>
    Except.ok { s with currentMemtable := MemTable.new s.sstCounter,
                       frozenMemtables := frozen :: s.frozenMemtables,
                       sstCounter := s.sstCounter + 1 }

/-- The final insert of `StorageState::put` (the second read-snapshot). -/
def StorageState.putCurrent (s : StorageState) (k v : Bytes) :
    Except StorageError StorageState :=
  match s.currentMemtable.put k v with
  | Except.error e => Except.error e
  | Except.ok m => Except.ok { s with currentMemtable := m }

/-- `StorageState::put`: freeze first exactly when the current size is
nonzero and `size + key.len() + value.len()` exceeds `sst_max_size_bytes`,
then insert into the (possibly fresh) current memtable. -/
def StorageState.put (s : StorageState) (opts : StorageStateOptions) (k v : Bytes) :
    Except StorageError StorageState :=
  if 0 < s.currentMemtable.sizeBytes ∧
      opts.sstMaxSizeBytes < s.currentMemtable.sizeBytes + (k.length + v.length) then
    match s.freezeMemtable with
    | Except.error e => Except.error e
    | Except.ok s2 => s2.putCurrent k v
  else s.putCurrent k v

/-- `StorageState::delete`: error when `get` finds nothing, otherwise a
tombstone write through `put`. -/
def StorageState.delete (s : StorageState) (opts : StorageStateOptions) (k : Bytes) :
    Except StorageError StorageState :=
  match s.get k with
  | none => Except.error StorageError.keyNotFound
  | some _ => s.put opts k TOMBSTONE

/-- `StorageState::flush_next_memtable_to_l0`: drain the oldest frozen
memtable (back of the queue) into an SST carrying the memtable's id — by C4
the built SST holds exactly the memtable's ordered entries — push it to the
front of the SST list and drop the memtable; a no-op without frozen
memtables.  IO failure modes are not modelled. -/
def StorageState.flushNextMemtableToL0 (s : StorageState) : StorageState :=
  match s.frozenMemtables.getLast? with
  | none => s
  | some m =>
    { s with ssts := ⟨m.id, m.entries⟩ :: s.ssts,
             frozenMemtables := s.frozenMemtables.dropLast }

/-- `StorageState::scan`: merge the per-memtable range scans (current
first, then frozen newest-first), merge the bounded per-SST scans of the
SSTs passing `range_overlap` (newest first), and two-merge the two with the
memtable side as X. -/
def StorageState.scan (s : StorageState) (lower upper : Bound) : List KeyValuePair :=
  twoMerge
    (mergeAll ((s.currentMemtable :: s.frozenMemtables).map (fun m => m.scan lower upper)))
    (mergeAll (s.ssts.filterMap (fun t =>
      if range_overlap lower upper (TimestampedKey.new t.get_first_key)
          (TimestampedKey.new t.get_last_key) then
        some (boundedTake upper ((sstScanFrom t.entries lower).map toKV))
      else none)))

/-- The single-threaded operation alphabet for the C1 run: public `put`s
interleaved with flushes of the oldest frozen memtable (freezes happen
inside `put`; `freeze_memtable` is private and only reached from there). -/
inductive Op where
  | putOp (k v : Bytes)
  | flushOp
deriving DecidableEq, Repr

/-- One operation against the storage state. -/
def applyOp (opts : StorageStateOptions) (s : StorageState) :
    Op → Except StorageError StorageState
  | Op.putOp k v => s.put opts k v
  | Op.flushOp => Except.ok s.flushNextMemtableToL0

/-- A sequence of operations, stopping at the first error. -/
def applyOps (opts : StorageStateOptions) (s : StorageState) :
    List Op → Except StorageError StorageState
  | [] => Except.ok s
  | op :: rest =>
    match applyOp opts s op with
    | Except.error e => Except.error e
    | Except.ok s2 => applyOps opts s2 rest

/-- The put payloads of an operation sequence, in order. -/
def putsOf : List Op → List (Bytes × Bytes)
  | [] => []
  | Op.putOp k v :: rest => (k, v) :: putsOf rest
  | Op.flushOp :: rest => putsOf rest

/-- All physical entries of a state, newest component first. -/
def allEntries (s : StorageState) : List (Bytes × Bytes) :=
  s.currentMemtable.entries ++ (s.frozenMemtables.map MemTable.entries).flatten ++
    (s.ssts.map SstModel.entries).flatten

/-- Successive `MemTable::put`s, stopping at the first error. -/
def applyPuts (m : MemTable) : List (Bytes × Bytes) → Except StorageError MemTable
  | [] => Except.ok m
  | p :: rest =>
    match m.put p.1 p.2 with
    | Except.error e => Except.error e
    | Except.ok m2 => applyPuts m2 rest

/-- Strict unsigned-lexicographic sortedness of an entry list by key. -/
def entSorted (l : List (Bytes × Bytes)) : Prop :=
  List.Pairwise (fun a b => bytesLtB a.1 b.1 = true) l

/-- The reachability invariant of the storage state machine. -/
structure WF (s : StorageState) : Prop where
  curMut : s.currentMemtable.mutableFlag = true
  curSorted : entSorted s.currentMemtable.entries
  frozenSorted : ∀ m ∈ s.frozenMemtables, entSorted m.entries
  sstSorted : ∀ t ∈ s.ssts, entSorted t.entries
  frozenNe : ∀ m ∈ s.frozenMemtables, m.entries ≠ []
  sstNe : ∀ t ∈ s.ssts, t.entries ≠ []
  curSize : s.currentMemtable.entries = [] → s.currentMemtable.sizeBytes = 0
  nodupKeys : ((allEntries s).map Prod.fst).Nodup

/-- The characterisation of `StorageState::put` stated by C2: rotation to a
fresh memtable exactly under the size condition, plain insert otherwise. -/
def putRotationSpec (s : StorageState) (opts : StorageStateOptions) (k v : Bytes) : Prop :=
  ((0 < s.currentMemtable.sizeBytes ∧
      opts.sstMaxSizeBytes < s.currentMemtable.sizeBytes + (k.length + v.length)) →
    s.put opts k v = Except.ok
      { s with
        currentMemtable :=
          { id := s.sstCounter, entries := [(k, v)],
            sizeBytes := k.length + v.length, mutableFlag := true },
        frozenMemtables :=
          { s.currentMemtable with mutableFlag := false } :: s.frozenMemtables,
        sstCounter := s.sstCounter + 1 }) ∧
  (¬(0 < s.currentMemtable.sizeBytes ∧
      opts.sstMaxSizeBytes < s.currentMemtable.sizeBytes + (k.length + v.length)) →
    s.put opts k v = Except.ok
      { s with
        currentMemtable :=
          { s.currentMemtable with
            entries := skipInsert s.currentMemtable.entries k v,
            sizeBytes := s.currentMemtable.sizeBytes + (k.length + v.length) } })

/-- The state produced by the rotation branch of `StorageState::put` (proof
helper). -/
def rotatedPut (s : StorageState) (k v : Bytes) : StorageState :=
  { currentMemtable :=
      { id := s.sstCounter, entries := [(k, v)],
        sizeBytes := k.length + v.length, mutableFlag := true },
    frozenMemtables :=
      { id := s.currentMemtable.id, entries := s.currentMemtable.entries,
        sizeBytes := s.currentMemtable.sizeBytes, mutableFlag := false } ::
        s.frozenMemtables,
    ssts := s.ssts, sstCounter := s.sstCounter + 1 }

/-- The state produced by the plain-insert branch of `StorageState::put`
(proof helper). -/
def insertedPut (s : StorageState) (k v : Bytes) : StorageState :=
  { currentMemtable :=
      { id := s.currentMemtable.id,
        entries := skipInsert s.currentMemtable.entries k v,
        sizeBytes := s.currentMemtable.sizeBytes + (k.length + v.length),
        mutableFlag := s.currentMemtable.mutableFlag },
    frozenMemtables := s.frozenMemtables,
    ssts := s.ssts, sstCounter := s.sstCounter }

/-- Options and operations for the C1 concrete runs: a 2-byte memtable
budget, so the second put rotates, and a flush that moves the first entry
into an L0 SST. -/
def c1Opts : StorageStateOptions := ⟨2⟩

def c1Ops : List Op := [Op.putOp [2] [20], Op.putOp [1] [10], Op.flushOp]

/-- The state reached by `c1Ops` from `initState`. -/
def c1FinalState : StorageState :=
  { currentMemtable := { id := 1, entries := [([1], [10])], sizeBytes := 2, mutableFlag := true },
    frozenMemtables := [],
    ssts := [{ id := 0, entries := [([2], [20])] }],
    sstCounter := 2 }

def c2State : StorageState :=
  { currentMemtable := { id := 0, entries := [([5], [6])], sizeBytes := 2, mutableFlag := true },
    frozenMemtables := [], ssts := [], sstCounter := 1 }

def c3State : StorageState :=
  { currentMemtable := { id := 0, entries := [([3], [4])], sizeBytes := 2, mutableFlag := true },
    frozenMemtables := [], ssts := [], sstCounter := 1 }

def c9State : StorageState :=
  { currentMemtable := { id := 0, entries := [], sizeBytes := 0, mutableFlag := true },
    frozenMemtables := [], ssts := [], sstCounter := 1 }

def c10Mem : MemTable :=
  { id := 0, entries := [([1], [5])], sizeBytes := 2, mutableFlag := true }

/- ----------------------------------------------------------------------
Theorems.
---------------------------------------------------------------------- -/

theorem bytesCmp_self (a : Bytes) : bytesCmp a a = Ordering.eq := by
  induction a with
  | nil => rfl
  | cons x xs ih => simp [bytesCmp, ih]

theorem bytesCmp_eq_iff {a b : Bytes} : bytesCmp a b = Ordering.eq ↔ a = b := by
  induction a generalizing b with
  | nil => cases b <;> simp [bytesCmp]
  | cons x xs ih =>
    cases b with
    | nil => simp [bytesCmp]
    | cons y ys =>
      by_cases hxy : x < y
      · simp [bytesCmp, hxy]
        omega
      · by_cases hyx : y < x
        · simp [bytesCmp, hxy, hyx]
          omega
        · have hxy' : x = y := by omega
          simp [bytesCmp, hxy, hyx, hxy', ih]

theorem bytesCmp_swap (a b : Bytes) : bytesCmp b a = (bytesCmp a b).swap := by
  induction a generalizing b with
  | nil => cases b <;> simp [bytesCmp, Ordering.swap]
  | cons x xs ih =>
    cases b with
    | nil => simp [bytesCmp, Ordering.swap]
    | cons y ys =>
      by_cases hxy : x < y
      · have hyx : ¬ y < x := by omega
        simp [bytesCmp, hxy, hyx, Ordering.swap]
      · by_cases hyx : y < x
        · simp [bytesCmp, hxy, hyx, Ordering.swap]
        · simp [bytesCmp, hxy, hyx, ih]

theorem bytesCmp_trans_lt {a b c : Bytes} (h1 : bytesCmp a b = Ordering.lt)
    (h2 : bytesCmp b c = Ordering.lt) : bytesCmp a c = Ordering.lt := by
  induction a generalizing b c with
  | nil =>
    cases b with
    | nil => exact absurd h1 (by simp [bytesCmp])
    | cons y ys =>
      cases c with
      | nil => exact absurd h2 (by simp [bytesCmp])
      | cons z zs => simp [bytesCmp]
  | cons x xs ih =>
    cases b with
    | nil => exact absurd h1 (by simp [bytesCmp])
    | cons y ys =>
      cases c with
      | nil => exact absurd h2 (by simp [bytesCmp])
      | cons z zs =>
        by_cases hxy : x < y
        · -- x < y; need case on y vs z
          by_cases hyz : y < z
          · have hxz : x < z := by omega
            simp [bytesCmp, hxz]
          · by_cases hzy : z < y
            · simp [bytesCmp, hyz, hzy] at h2
            · have hyz' : y = z := by omega
              have hxz : x < z := by omega
              simp [bytesCmp, hxz]
        · by_cases hyx : y < x
          · simp [bytesCmp, hxy, hyx] at h1
          · have hxy' : x = y := by omega
            subst hxy'
            have h1' : bytesCmp xs ys = Ordering.lt := by
              simpa [bytesCmp, hxy, hyx] using h1
            by_cases hyz : x < z
            · simp [bytesCmp, hyz]
            · by_cases hzy : z < x
              · simp [bytesCmp, hyz, hzy] at h2
              · have h2' : bytesCmp ys zs = Ordering.lt := by
                  simpa [bytesCmp, hyz, hzy] using h2
                simp [bytesCmp, hyz, hzy, ih h1' h2']

theorem bytesLtB_iff {a b : Bytes} : bytesLtB a b = true ↔ bytesCmp a b = Ordering.lt := by
  rcases h : bytesCmp a b with _ | _ | _ <;> simp [bytesLtB, h]

theorem bytesLeB_iff {a b : Bytes} :
    bytesLeB a b = true ↔ bytesCmp a b = Ordering.lt ∨ a = b := by
  rcases h : bytesCmp a b with _ | _ | _ <;>
    simp [bytesLeB, h, ← bytesCmp_eq_iff]

theorem bytesLtB_irrefl (a : Bytes) : bytesLtB a a = false := by
  simp [bytesLtB, bytesCmp_self]

theorem bytesLtB_trans {a b c : Bytes} (h1 : bytesLtB a b = true)
    (h2 : bytesLtB b c = true) : bytesLtB a c = true := by
  rw [bytesLtB_iff] at *
  exact bytesCmp_trans_lt h1 h2

theorem bytesLtB_asymm {a b : Bytes} (h : bytesLtB a b = true) : bytesLtB b a = false := by
  rw [bytesLtB_iff] at h
  have hs := bytesCmp_swap a b
  rw [h] at hs
  simp [bytesLtB, hs, Ordering.swap]

theorem bytesLeB_total (a b : Bytes) : bytesLeB a b = true ∨ bytesLeB b a = true := by
  rcases h : bytesCmp a b with _ | _ | _
  · left; simp [bytesLeB, h]
  · left; simp [bytesLeB, h]
  · right
    have hs := bytesCmp_swap a b
    rw [h] at hs
    simp [bytesLeB, hs, Ordering.swap]

theorem bytesLeB_trans {a b c : Bytes} (h1 : bytesLeB a b = true)
    (h2 : bytesLeB b c = true) : bytesLeB a c = true := by
  rw [bytesLeB_iff] at *
  rcases h1 with h1 | h1
  · rcases h2 with h2 | h2
    · exact Or.inl (bytesCmp_trans_lt h1 h2)
    · subst h2; exact Or.inl h1
  · subst h1; exact h2

theorem bytesLeB_antisymm {a b : Bytes} (h1 : bytesLeB a b = true)
    (h2 : bytesLeB b a = true) : a = b := by
  rw [bytesLeB_iff] at *
  rcases h1 with h1 | h1
  · rcases h2 with h2 | h2
    · have := bytesCmp_trans_lt h1 h2
      rw [bytesCmp_self] at this
      cases this
    · exact h2.symm
  · exact h1

theorem bytesLtB_of_bytesLeB_of_ne {a b : Bytes} (h : bytesLeB a b = true)
    (hne : a ≠ b) : bytesLtB a b = true := by
  rw [bytesLeB_iff] at h
  rcases h with h | h
  · exact bytesLtB_iff.mpr h
  · exact absurd h hne

theorem bytesLeB_of_bytesLtB {a b : Bytes} (h : bytesLtB a b = true) :
    bytesLeB a b = true := by
  rw [bytesLtB_iff] at h
  exact bytesLeB_iff.mpr (Or.inl h)

theorem bytesLeB_refl (a : Bytes) : bytesLeB a a = true := by
  simp [bytesLeB, bytesCmp_self]

theorem not_bytesLeB_iff {a b : Bytes} : bytesLeB a b = false ↔ bytesLtB b a = true := by
  constructor
  · intro h
    rcases hc : bytesCmp a b with _ | _ | _ <;> simp [bytesLeB, hc] at h
    have hs := bytesCmp_swap a b
    rw [hc] at hs
    simp [bytesLtB, hs, Ordering.swap]
  · intro h
    rw [bytesLtB_iff] at h
    have hs := bytesCmp_swap b a
    rw [h] at hs
    simp [bytesLeB, hs, Ordering.swap]

theorem natCmp_eq_iff {a b : Nat} : natCmp a b = Ordering.eq ↔ a = b := by
  unfold natCmp
  split_ifs
  all_goals simp
  all_goals omega

theorem natCmp_swap (a b : Nat) : natCmp b a = (natCmp a b).swap := by
  unfold natCmp
  split_ifs
  all_goals simp [Ordering.swap]
  all_goals omega

theorem natCmp_trans_lt {a b c : Nat} (h1 : natCmp a b = Ordering.lt)
    (h2 : natCmp b c = Ordering.lt) : natCmp a c = Ordering.lt := by
  unfold natCmp at h1 h2 ⊢
  split_ifs at h1 h2 ⊢
  all_goals first
  | rfl
  | (exfalso; omega)

theorem Ordering.then_eq_lt_iff {o1 o2 : Ordering} :
    o1.then o2 = Ordering.lt ↔ o1 = Ordering.lt ∨ (o1 = Ordering.eq ∧ o2 = Ordering.lt) := by
  cases o1 <;> simp [Ordering.then]

theorem Ordering.then_eq_eq_iff {o1 o2 : Ordering} :
    o1.then o2 = Ordering.eq ↔ o1 = Ordering.eq ∧ o2 = Ordering.eq := by
  cases o1 <;> simp [Ordering.then]

theorem Ordering.swap_then (o1 o2 : Ordering) :
    (o1.then o2).swap = o1.swap.then o2.swap := by
  cases o1 <;> simp [Ordering.then, Ordering.swap]

theorem tkCmp_eq_iff {a b : TimestampedKey} : tkCmp a b = Ordering.eq ↔ a = b := by
  unfold tkCmp
  rw [Ordering.then_eq_eq_iff, bytesCmp_eq_iff, natCmp_eq_iff]
  cases a; cases b
  simp
  intro _
  exact eq_comm

theorem tkCmp_swap (a b : TimestampedKey) : tkCmp b a = (tkCmp a b).swap := by
  unfold tkCmp
  rw [Ordering.swap_then, ← bytesCmp_swap, ← natCmp_swap]

theorem tkCmp_trans_lt {a b c : TimestampedKey} (h1 : tkCmp a b = Ordering.lt)
    (h2 : tkCmp b c = Ordering.lt) : tkCmp a c = Ordering.lt := by
  unfold tkCmp at *
  rw [Ordering.then_eq_lt_iff] at *
  rcases h1 with h1 | ⟨h1e, h1t⟩
  · rcases h2 with h2 | ⟨h2e, h2t⟩
    · exact Or.inl (bytesCmp_trans_lt h1 h2)
    · rw [bytesCmp_eq_iff] at h2e
      rw [← h2e]
      exact Or.inl h1
  · rw [bytesCmp_eq_iff] at h1e
    rcases h2 with h2 | ⟨h2e, h2t⟩
    · rw [h1e]
      exact Or.inl h2
    · rw [bytesCmp_eq_iff] at h2e
      exact Or.inr ⟨by rw [h1e, h2e, bytesCmp_self], natCmp_trans_lt h2t h1t⟩

theorem kvCmp_eq_iff {a b : KeyValuePair} : kvCmp a b = Ordering.eq ↔ a = b := by
  unfold kvCmp
  rw [Ordering.then_eq_eq_iff, tkCmp_eq_iff, bytesCmp_eq_iff]
  cases a; cases b
  simp

theorem kvCmp_swap (a b : KeyValuePair) : kvCmp b a = (kvCmp a b).swap := by
  unfold kvCmp
  rw [Ordering.swap_then, ← tkCmp_swap, ← bytesCmp_swap]

theorem kvCmp_trans_lt {a b c : KeyValuePair} (h1 : kvCmp a b = Ordering.lt)
    (h2 : kvCmp b c = Ordering.lt) : kvCmp a c = Ordering.lt := by
  unfold kvCmp at *
  rw [Ordering.then_eq_lt_iff] at *
  rcases h1 with h1 | ⟨h1e, h1t⟩
  · rcases h2 with h2 | ⟨h2e, h2t⟩
    · exact Or.inl (tkCmp_trans_lt h1 h2)
    · rw [tkCmp_eq_iff] at h2e
      rw [← h2e]
      exact Or.inl h1
  · rw [tkCmp_eq_iff] at h1e
    rcases h2 with h2 | ⟨h2e, h2t⟩
    · rw [h1e]
      exact Or.inl h2
    · rw [tkCmp_eq_iff] at h2e
      exact Or.inr ⟨by rw [h1e, h2e, tkCmp_eq_iff], bytesCmp_trans_lt h1t h2t⟩

theorem hpCmp_eq_iff {a b : KeyValuePair × Nat} : hpCmp a b = Ordering.eq ↔ a = b := by
  unfold hpCmp
  rw [Ordering.then_eq_eq_iff, kvCmp_eq_iff, natCmp_eq_iff]
  cases a; cases b
  simp

theorem hpCmp_swap (a b : KeyValuePair × Nat) : hpCmp b a = (hpCmp a b).swap := by
  unfold hpCmp
  rw [Ordering.swap_then, ← kvCmp_swap, ← natCmp_swap]

theorem hpCmp_trans_lt {a b c : KeyValuePair × Nat} (h1 : hpCmp a b = Ordering.lt)
    (h2 : hpCmp b c = Ordering.lt) : hpCmp a c = Ordering.lt := by
  unfold hpCmp at *
  rw [Ordering.then_eq_lt_iff] at *
  rcases h1 with h1 | ⟨h1e, h1t⟩
  · rcases h2 with h2 | ⟨h2e, h2t⟩
    · exact Or.inl (kvCmp_trans_lt h1 h2)
    · rw [kvCmp_eq_iff] at h2e
      rw [← h2e]
      exact Or.inl h1
  · rw [kvCmp_eq_iff] at h1e
    rcases h2 with h2 | ⟨h2e, h2t⟩
    · rw [h1e]
      exact Or.inl h2
    · rw [kvCmp_eq_iff] at h2e
      exact Or.inr ⟨by rw [h1e, h2e, kvCmp_eq_iff], natCmp_trans_lt h1t h2t⟩

theorem cmpLeB_iff {α : Type} {c : α → α → Ordering} {a b : α} :
    cmpLeB c a b = true ↔ c a b = Ordering.lt ∨ c a b = Ordering.eq := by
  rcases h : c a b with _ | _ | _ <;> simp [cmpLeB, h]

theorem cmpLtB_iff {α : Type} {c : α → α → Ordering} {a b : α} :
    cmpLtB c a b = true ↔ c a b = Ordering.lt := by
  rcases h : c a b with _ | _ | _ <;> simp [cmpLtB, h]

theorem kvLeB_total (a b : KeyValuePair) : kvLeB a b = true ∨ kvLeB b a = true := by
  rcases h : kvCmp a b with _ | _ | _
  · exact Or.inl (cmpLeB_iff.mpr (Or.inl h))
  · exact Or.inl (cmpLeB_iff.mpr (Or.inr h))
  · have hs := kvCmp_swap a b
    rw [h] at hs
    exact Or.inr (cmpLeB_iff.mpr (Or.inl hs))

theorem kvLeB_trans {a b c : KeyValuePair} (h1 : kvLeB a b = true)
    (h2 : kvLeB b c = true) : kvLeB a c = true := by
  rw [cmpLeB_iff] at *
  rcases h1 with h1 | h1
  · rcases h2 with h2 | h2
    · exact Or.inl (kvCmp_trans_lt h1 h2)
    · rw [kvCmp_eq_iff] at h2
      rw [← h2]
      exact Or.inl h1
  · rw [kvCmp_eq_iff] at h1
    rw [h1]
    exact h2

theorem hpLeB_total (a b : KeyValuePair × Nat) : hpLeB a b = true ∨ hpLeB b a = true := by
  rcases h : hpCmp a b with _ | _ | _
  · exact Or.inl (cmpLeB_iff.mpr (Or.inl h))
  · exact Or.inl (cmpLeB_iff.mpr (Or.inr h))
  · have hs := hpCmp_swap a b
    rw [h] at hs
    exact Or.inr (cmpLeB_iff.mpr (Or.inl hs))

theorem hpLeB_trans {a b c : KeyValuePair × Nat} (h1 : hpLeB a b = true)
    (h2 : hpLeB b c = true) : hpLeB a c = true := by
  rw [cmpLeB_iff] at *
  rcases h1 with h1 | h1
  · rcases h2 with h2 | h2
    · exact Or.inl (hpCmp_trans_lt h1 h2)
    · rw [hpCmp_eq_iff] at h2
      rw [← h2]
      exact Or.inl h1
  · rw [hpCmp_eq_iff] at h1
    rw [h1]
    exact h2

theorem hpLeB_antisymm {a b : KeyValuePair × Nat} (h1 : hpLeB a b = true)
    (h2 : hpLeB b a = true) : a = b := by
  rw [cmpLeB_iff] at *
  rcases h1 with h1 | h1
  · rcases h2 with h2 | h2
    · have := hpCmp_trans_lt h1 h2
      rw [show hpCmp a a = Ordering.eq from hpCmp_eq_iff.mpr rfl] at this
      cases this
    · rw [hpCmp_eq_iff] at h2
      exact h2.symm
  · exact hpCmp_eq_iff.mp h1

theorem not_hpLeB_iff {a b : KeyValuePair × Nat} :
    hpLeB a b = false ↔ hpCmp b a = Ordering.lt := by
  constructor
  · intro h
    rcases hc : hpCmp a b with _ | _ | _ <;> simp [cmpLeB, hpLeB, hc] at h
    have hs := hpCmp_swap a b
    rw [hc] at hs
    exact hs
  · intro h
    have hs := hpCmp_swap b a
    rw [h] at hs
    simp [hpLeB, cmpLeB, hs, Ordering.swap]

theorem kmIndices_lt {k kmHash h2 m : Nat} (hm : 0 < m) :
    ∀ i ∈ kmIndices k kmHash h2 m, i < m := by
  induction k generalizing kmHash with
  | zero => intro i hi; cases hi
  | succ k ih =>
    intro i hi
    rcases hi with _ | ⟨_, hi⟩
    · exact Nat.mod_lt _ hm
    · exact ih _ hi

theorem setBit_length (bv : List Bool) (i : Nat) : (setBit bv i).length = bv.length := by
  simp [setBit]

theorem setBits_length (bv : List Bool) (idxs : List Nat) :
    (setBits bv idxs).length = bv.length := by
  induction idxs generalizing bv with
  | nil => rfl
  | cons j rest ih =>
    rw [setBits, List.foldl_cons]
    exact (ih (setBit bv j)).trans (setBit_length bv j)

theorem setBit_preserves {bv : List Bool} {i j : Nat} (h : bv.getD i false = true) :
    (setBit bv j).getD i false = true := by
  unfold setBit
  by_cases hij : i = j
  · subst hij
    by_cases hlen : i < bv.length
    · rw [List.getD_eq_getElem _ _ (by simpa using hlen)]
      simp [List.getElem_set_self]
    · rw [List.getD_eq_default _ _ (by simpa using Nat.le_of_not_lt hlen)] at h
      cases h
  · rw [List.getD, List.get?_eq_getElem?, List.getElem?_set_ne (Ne.symm hij),
      ← List.get?_eq_getElem?]
    exact h

theorem setBits_preserves {bv : List Bool} {i : Nat} (idxs : List Nat)
    (h : bv.getD i false = true) : (setBits bv idxs).getD i false = true := by
  induction idxs generalizing bv with
  | nil => exact h
  | cons j rest ih =>
    simp only [setBits, List.foldl_cons]
    exact ih (setBit_preserves h)

theorem setBit_sets {bv : List Bool} {i : Nat} (hlen : i < bv.length) :
    (setBit bv i).getD i false = true := by
  unfold setBit
  rw [List.getD_eq_getElem _ _ (by simpa using hlen)]
  simp [List.getElem_set_self]

theorem setBits_sets {bv : List Bool} {i : Nat} {idxs : List Nat}
    (hmem : i ∈ idxs) (hlen : i < bv.length) :
    (setBits bv idxs).getD i false = true := by
  induction idxs generalizing bv with
  | nil => cases hmem
  | cons j rest ih =>
    simp only [setBits, List.foldl_cons]
    rcases hmem with _ | ⟨_, hmem⟩
    · exact setBits_preserves rest (setBit_sets hlen)
    · exact ih hmem (by rw [setBit_length]; exact hlen)

theorem foldl_setBits_length (h64 : Bytes → Nat) (m k : Nat) (keys : List TimestampedKey)
    (bv : List Bool) :
    (keys.foldl (fun bv key => setBits bv (get_indices_for_key h64 key.key m k)) bv).length
      = bv.length := by
  induction keys generalizing bv with
  | nil => rfl
  | cons tk rest ih => rw [List.foldl_cons, ih, setBits_length]

theorem from_keys_length (h64 : Bytes → Nat) (m k : Nat) (keys : List TimestampedKey) :
    (from_keys h64 m k keys).bitVec.length = m := by
  unfold from_keys
  simp only
  rw [foldl_setBits_length]
  simp

theorem foldl_setBits_preserves (h64 : Bytes → Nat) (m k : Nat) (keys : List TimestampedKey)
    {bv : List Bool} {i : Nat} (h : bv.getD i false = true) :
    (keys.foldl (fun bv key => setBits bv (get_indices_for_key h64 key.key m k)) bv).getD
      i false = true := by
  induction keys generalizing bv with
  | nil => exact h
  | cons tk rest ih =>
    rw [List.foldl_cons]
    exact ih (setBits_preserves _ h)

theorem from_keys_bit_set {h64 : Bytes → Nat} {m k : Nat} {keys : List TimestampedKey}
    {tk : TimestampedKey} {i : Nat} (hm : 0 < m) (htk : tk ∈ keys)
    (hi : i ∈ get_indices_for_key h64 tk.key m k) :
    (from_keys h64 m k keys).bitVec.getD i false = true := by
  unfold from_keys
  simp only
  have hilt : i < m := by
    unfold get_indices_for_key at hi
    exact kmIndices_lt hm _ hi
  have main : ∀ (bv : List Bool), bv.length = m →
      (keys.foldl (fun bv key => setBits bv (get_indices_for_key h64 key.key m k)) bv).getD
        i false = true := by
    induction keys with
    | nil => intro bv hbv; cases htk
    | cons hd rest ih =>
      intro bv hbv
      rw [List.foldl_cons]
      rcases htk with _ | ⟨_, htl⟩
      · exact foldl_setBits_preserves h64 m k rest
          (setBits_sets hi (by rw [hbv]; exact hilt))
      · exact ih htl _ (by rw [setBits_length, hbv])
  exact main _ (by simp)

theorem u16be_length (n : Nat) : (u16be n).length = 2 := rfl

theorem u16FromBe_u16be {n : Nat} (hn : n ≤ 65535) :
    u16FromBe (n / 256 % 256) (n % 256) = n := by
  show 256 * (n / 256 % 256) + n % 256 = n
  omega

theorem getD_append_left {l1 l2 : List Nat} {i : Nat} (h : i < l1.length) :
    (l1 ++ l2).getD i 0 = l1.getD i 0 := by
  rw [List.getD, List.getD, List.get?_eq_getElem?, List.get?_eq_getElem?,
    List.getElem?_append_left h]

theorem getD_append_right_zero {l1 l2 : List Nat} {i : Nat} :
    (l1 ++ l2).getD (l1.length + i) 0 = l2.getD i 0 := by
  rw [List.getD, List.getD, List.get?_eq_getElem?, List.get?_eq_getElem?]
  rw [List.getElem?_append_right (by omega), Nat.add_sub_cancel_left]

theorem readU16_at {data pre tail : List Nat} {n : Nat}
    (hd : data = pre ++ u16be n ++ tail) (hn : n ≤ 65535) :
    u16FromBe (data.getD pre.length 0) (data.getD (pre.length + 1) 0) = n := by
  subst hd
  rw [List.append_assoc]
  have h0 := @getD_append_right_zero pre (u16be n ++ tail) 0
  have h1 := @getD_append_right_zero pre (u16be n ++ tail) 1
  rw [Nat.add_zero] at h0
  rw [h0, h1]
  show u16FromBe (n / 256 % 256) (n % 256) = n
  exact u16FromBe_u16be hn

theorem slice_at {data pre seg tail : List Nat} (hd : data = pre ++ seg ++ tail) :
    (data.drop pre.length).take seg.length = seg := by
  subst hd
  rw [List.append_assoc, List.drop_left, List.take_left]

theorem commonPrefixLen_le_left (a b : Bytes) : commonPrefixLen a b ≤ a.length := by
  induction a generalizing b with
  | nil => cases b <;> simp [commonPrefixLen]
  | cons x xs ih =>
    cases b with
    | nil => simp [commonPrefixLen]
    | cons y ys =>
      by_cases hxy : x = y
      · simp only [commonPrefixLen, if_pos hxy, List.length_cons]
        exact Nat.succ_le_succ (ih ys)
      · simp [commonPrefixLen, hxy]

theorem commonPrefixLen_take (a b : Bytes) :
    a.take (commonPrefixLen a b) = b.take (commonPrefixLen a b) := by
  induction a generalizing b with
  | nil => cases b <;> simp [commonPrefixLen]
  | cons x xs ih =>
    cases b with
    | nil => simp [commonPrefixLen]
    | cons y ys =>
      by_cases hxy : x = y
      · subst hxy
        show List.take (if x = x then commonPrefixLen xs ys + 1 else 0) (x :: xs) =
          List.take (if x = x then commonPrefixLen xs ys + 1 else 0) (x :: ys)
        rw [if_pos rfl, List.take_succ_cons, List.take_succ_cons, ih ys]
      · simp [commonPrefixLen, hxy]

theorem offsetsFrom_append (fk : Bytes) (start : Nat) (l1 l2 : List KeyValuePair) :
    offsetsFrom fk start (l1 ++ l2) =
      offsetsFrom fk start l1 ++
        offsetsFrom fk (start + ((l1.map (encSubEntry fk)).flatten).length) l2 := by
  induction l1 generalizing start with
  | nil => simp [offsetsFrom]
  | cons kv rest ih =>
    simp only [List.cons_append, offsetsFrom, List.map_cons, List.flatten_cons,
      List.length_append, List.append_eq, ih]
    rw [Nat.add_assoc]

theorem add_first_inv {bs : Nat} {kv0 : KeyValuePair} {b : BlockBuilder}
    (h : (BlockBuilder.new bs).add kv0 = Except.ok b) :
    BuilderInv b kv0 [] := by
  unfold BlockBuilder.add BlockBuilder.new at h
  simp only [BlockBuilder.is_empty, List.length_nil] at h
  split_ifs at h with h1 h2 h3
  rw [Except.ok.injEq] at h
  subst h
  have hb2 : kv0.key.key.length ≤ 65535 ∧ kv0.value.length ≤ 65535 := by
    simpa using h2
  have hkl := hb2.1
  have hvl := hb2.2
  refine ⟨rfl, ?_, ?_, ?_, ?_, ?_⟩
  · simp [encFirstEntry]
  · simp [offsetsFrom]
  · simp
  · simp only [List.nil_append, Nat.zero_add] at h3 ⊢
    omega
  · intro kv hkv
    rcases hkv with _ | ⟨_, hh⟩
    · exact ⟨hkl, hvl⟩
    · cases hh

theorem add_sub_inv {b b' : BlockBuilder} {kv0 kv : KeyValuePair}
    {rest : List KeyValuePair} (hinv : BuilderInv b kv0 rest)
    (hk0 : kv0.key.key ≠ []) (h : b.add kv = Except.ok b') :
    BuilderInv b' kv0 (rest ++ [kv]) := by
  obtain ⟨hfk, hdata, hoffs, hcur, hbound, hlens⟩ := hinv
  have hfkne : ¬ b.firstKey.length = 0 := by
    rw [hfk]
    simpa using hk0
  unfold BlockBuilder.add at h
  rw [if_neg hfkne, if_neg hfkne] at h
  simp only [] at h
  split_ifs at h with h1 h2 h3
  rw [Except.ok.injEq] at h
  subst h
  have hb2 : kv.key.key.length ≤ 65535 ∧ kv.value.length ≤ 65535 := by
    simpa using h2
  have hkl := hb2.1
  have hvl := hb2.2
  refine ⟨hfk, ?_, ?_, ?_, ?_, ?_⟩
  · simp only [hdata, hfk, List.map_append, List.map_cons, List.map_nil,
      List.flatten_append, List.flatten_cons, List.flatten_nil, List.append_nil,
      encSubEntry, List.append_assoc]
  · simp only [hoffs, offsetsFrom_append, hcur, hdata]
    simp [offsetsFrom, List.length_append]
  · simp only [List.length_append, hcur]
  · simp only [List.length_append, hcur] at h3 ⊢
    omega
  · intro kv2 hkv2
    rcases hkv2 with _ | ⟨_, hkv2⟩
    · exact hlens kv0 (by simp)
    · rcases List.mem_append.mp hkv2 with hkv2 | hkv2
      · exact hlens kv2 (by simp [hkv2])
      · rcases hkv2 with _ | ⟨_, hkv2⟩
        · exact ⟨hkl, hvl⟩
        · cases hkv2

theorem addAll_inv {b b' : BlockBuilder} {kv0 : KeyValuePair}
    {rest l : List KeyValuePair} (hinv : BuilderInv b kv0 rest)
    (hk0 : kv0.key.key ≠ []) (h : addAll b l = Except.ok b') :
    BuilderInv b' kv0 (rest ++ l) := by
  induction l generalizing b rest with
  | nil =>
    simp only [addAll, Except.ok.injEq] at h
    subst h
    simpa using hinv
  | cons kv tl ih =>
    simp only [addAll] at h
    rcases hadd : b.add kv with e | b2
    · simp [hadd] at h
    · simp only [hadd] at h
      have := ih (add_sub_inv hinv hk0 hadd) h
      simpa [List.append_assoc] using this

theorem buildBlockList_inv {bs : Nat} {kv0 : KeyValuePair} {rest : List KeyValuePair}
    {blk : Block} (hk0 : kv0.key.key ≠ [])
    (h : buildBlockList bs (kv0 :: rest) = Except.ok blk) :
    ∃ b : BlockBuilder, BuilderInv b kv0 rest ∧ blk = b.build := by
  unfold buildBlockList at h
  simp only [addAll] at h
  rcases hadd : (BlockBuilder.new bs).add kv0 with e | b1
  · simp [hadd, Except.map] at h
  · simp only [hadd] at h
    rcases hall : addAll b1 rest with e | b2
    · simp [hall, Except.map] at h
    · simp only [hall, Except.map, Except.ok.injEq] at h
      refine ⟨b2, ?_, h.symm⟩
      have := addAll_inv (add_first_inv hadd) hk0 hall
      simpa using this

theorem flatten_map_u16be_length (l : List Nat) :
    ((l.map u16be).flatten).length = 2 * l.length := by
  induction l with
  | nil => rfl
  | cons x xs ih =>
    simp only [List.map_cons, List.flatten_cons, List.length_append, ih,
      u16be_length, List.length_cons]
    omega

theorem decodeU16Chunks_flatten {l : List Nat} (h : ∀ x ∈ l, x ≤ 65535) :
    decodeU16Chunks ((l.map u16be).flatten) = l := by
  induction l with
  | nil => rfl
  | cons x xs ih =>
    have hx := h x (by simp)
    have ihh := ih (fun y hy => h y (by simp [hy]))
    simp [u16be, decodeU16Chunks, u16FromBe_u16be hx, ihh]

theorem Block.decode_def (encoded : List Nat) :
    Block.decode encoded =
      ⟨encoded.take (u16FromBe (encoded.getD (encoded.length - 2) 0)
          (encoded.getD (encoded.length - 1) 0)),
        decodeU16Chunks ((encoded.drop (u16FromBe (encoded.getD (encoded.length - 2) 0)
          (encoded.getD (encoded.length - 1) 0))).take
          (encoded.length - 2 - u16FromBe (encoded.getD (encoded.length - 2) 0)
            (encoded.getD (encoded.length - 1) 0))),
        u16FromBe (encoded.getD (encoded.length - 2) 0)
          (encoded.getD (encoded.length - 1) 0)⟩ := rfl

theorem decode_encode {data offsets : List Nat}
    (hlen : data.length ≤ 65535) (hoffs : ∀ o ∈ offsets, o ≤ 65535) :
    Block.decode (Block.encode ⟨data, offsets, data.length⟩) =
      ⟨data, offsets, data.length⟩ := by
  have hflat : ((offsets.map u16be).flatten).length = 2 * offsets.length :=
    flatten_map_u16be_length offsets
  have henc : Block.encode ⟨data, offsets, data.length⟩ =
      (data ++ (offsets.map u16be).flatten) ++ u16be data.length := by
    unfold Block.encode
    simp [List.append_assoc]
  have hn : ((data ++ (offsets.map u16be).flatten) ++ u16be data.length).length =
      data.length + 2 * offsets.length + 2 := by
    simp only [List.length_append, hflat, u16be_length]
  rw [Block.decode_def, henc, hn]
  have hpre : (data ++ (offsets.map u16be).flatten).length =
      data.length + 2 * offsets.length := by
    simp [hflat]
  have h2a : ((data ++ (offsets.map u16be).flatten) ++ u16be data.length).getD
      (data.length + 2 * offsets.length + 2 - 2) 0 = data.length / 256 % 256 := by
    have harith : data.length + 2 * offsets.length + 2 - 2 =
        (data ++ (offsets.map u16be).flatten).length + 0 := by
      rw [hpre]
      omega
    rw [harith, getD_append_right_zero]
    rfl
  have h2b : ((data ++ (offsets.map u16be).flatten) ++ u16be data.length).getD
      (data.length + 2 * offsets.length + 2 - 1) 0 = data.length % 256 := by
    have harith : data.length + 2 * offsets.length + 2 - 1 =
        (data ++ (offsets.map u16be).flatten).length + 1 := by
      rw [hpre]
      omega
    rw [harith, getD_append_right_zero]
    rfl
  rw [h2a, h2b, u16FromBe_u16be hlen]
  have htake : ((data ++ (offsets.map u16be).flatten) ++ u16be data.length).take
      data.length = data := by
    rw [List.append_assoc]
    exact List.take_left data _
  have hdrop : ((data ++ (offsets.map u16be).flatten) ++ u16be data.length).drop
      data.length = (offsets.map u16be).flatten ++ u16be data.length := by
    rw [List.append_assoc]
    exact List.drop_left data _
  rw [htake, hdrop]
  have harith2 : data.length + 2 * offsets.length + 2 - 2 - data.length =
      ((offsets.map u16be).flatten).length := by
    rw [hflat]
    omega
  rw [harith2, List.take_left, decodeU16Chunks_flatten hoffs]

theorem readU16_at2 (pre : List Nat) {data tail : List Nat} {n p : Nat}
    (hd : data = pre ++ u16be n ++ tail) (hp : p = pre.length) (hn : n ≤ 65535) :
    u16FromBe (data.getD p 0) (data.getD (p + 1) 0) = n := by
  subst hp
  exact readU16_at hd hn

theorem slice_at2 (pre seg : List Nat) {data tail : List Nat} {p L : Nat}
    (hd : data = pre ++ seg ++ tail) (hp : p = pre.length) (hL : L = seg.length) :
    (data.drop p).take L = seg := by
  subst hp
  subst hL
  exact slice_at hd

theorem parse_first_entry (blk : Block) {kv0 : KeyValuePair} {tail : List Nat}
    (firstKey : Bytes) (hdata : blk.data = encFirstEntry kv0 ++ tail)
    (hoff0 : blk.offsets.getD 0 0 = 0)
    (hlen0 : blk.offsets.length ≠ 0)
    (hk : kv0.key.key.length ≤ 65535) (hv : kv0.value.length ≤ 65535)
    (hts : kv0.key.timestampMs = 0) :
    parseCurrentKv blk firstKey 0 = some kv0 := by
  obtain ⟨⟨k0, ts0⟩, v0⟩ := kv0
  simp only at hk hv hts
  subst hts
  unfold parseCurrentKv
  rw [if_neg (fun hc => hlen0 hc.symm), if_pos rfl, hoff0]
  simp only [Nat.zero_add]
  unfold encFirstEntry at hdata
  simp only [List.append_assoc] at hdata
  have hks : u16FromBe (blk.data.getD 0 0) (blk.data.getD (0 + 1) 0) = k0.length := by
    exact readU16_at2 [] (by simpa using hdata) rfl hk
  rw [hks]
  have hkv : (blk.data.drop 2).take k0.length = k0 := by
    exact slice_at2 (u16be k0.length) k0
      (by simpa [List.append_assoc] using hdata) rfl rfl
  have hvs : u16FromBe (blk.data.getD (2 + k0.length + 2 - 2) 0)
      (blk.data.getD (2 + k0.length + 2 - 1) 0) = v0.length := by
    have h1 : (2 : Nat) + k0.length + 2 - 2 = (u16be k0.length ++ k0).length := by
      simp [u16be_length]
    have h2 : (2 : Nat) + k0.length + 2 - 1 = (u16be k0.length ++ k0).length + 1 := by
      simp [u16be_length]
    rw [h1, h2]
    exact readU16_at2 (u16be k0.length ++ k0)
      (by simpa [List.append_assoc] using hdata) rfl hv
  rw [hvs]
  have hval : (blk.data.drop (2 + k0.length + 2)).take v0.length = v0 := by
    exact slice_at2 (u16be k0.length ++ k0 ++ u16be v0.length) v0
      (by simpa [List.append_assoc] using hdata)
      (by simp [u16be_length] <;> omega) rfl
  rw [hkv, hval]
  rfl

theorem parse_sub_entry (pre suf : List Nat) (blk : Block) {kv : KeyValuePair}
    {i : Nat} {firstKey : Bytes}
    (hi0 : i ≠ 0) (hilen : i ≠ blk.offsets.length)
    (hdata : blk.data = pre ++ encSubEntry firstKey kv ++ suf)
    (hoff : blk.offsets.getD i 0 = pre.length)
    (hk : kv.key.key.length ≤ 65535) (hv : kv.value.length ≤ 65535)
    (hts : kv.key.timestampMs = 0) :
    parseCurrentKv blk firstKey i = some kv := by
  obtain ⟨⟨k1, ts1⟩, v1⟩ := kv
  simp only at hk hv hts
  subst hts
  unfold parseCurrentKv
  rw [if_neg hilen, if_neg hi0, hoff]
  unfold encSubEntry at hdata
  simp only at hdata
  have hcp := commonPrefixLen_le_left k1 firstKey
  have hov : u16FromBe (blk.data.getD pre.length 0)
      (blk.data.getD (pre.length + 1) 0) = commonPrefixLen k1 firstKey := by
    exact readU16_at2 pre (by simpa [List.append_assoc] using hdata) rfl
      (le_trans hcp hk)
  have hrl : u16FromBe (blk.data.getD (pre.length + 2) 0)
      (blk.data.getD (pre.length + 3) 0) =
      k1.length - commonPrefixLen k1 firstKey := by
    exact readU16_at2 (pre ++ u16be (commonPrefixLen k1 firstKey))
      (by simpa [List.append_assoc] using hdata) (by simp [u16be_length])
      (by omega)
  have hrest : (blk.data.drop (pre.length + 4)).take
      (k1.length - commonPrefixLen k1 firstKey) =
      k1.drop (commonPrefixLen k1 firstKey) := by
    exact slice_at2
      (pre ++ u16be (commonPrefixLen k1 firstKey) ++
        u16be (k1.length - commonPrefixLen k1 firstKey))
      (k1.drop (commonPrefixLen k1 firstKey))
      (by simpa [List.append_assoc] using hdata)
      (by simp [u16be_length] <;> omega) (by simp)
  have hvs : u16FromBe
      (blk.data.getD (pre.length + 4 + (k1.length - commonPrefixLen k1 firstKey) + 2 - 2) 0)
      (blk.data.getD (pre.length + 4 + (k1.length - commonPrefixLen k1 firstKey) + 2 - 1) 0) =
      v1.length := by
    have h1 : pre.length + 4 + (k1.length - commonPrefixLen k1 firstKey) + 2 - 2 =
        (pre ++ u16be (commonPrefixLen k1 firstKey) ++
          u16be (k1.length - commonPrefixLen k1 firstKey) ++
          k1.drop (commonPrefixLen k1 firstKey)).length := by
      simp [u16be_length] <;> omega
    have h2 : pre.length + 4 + (k1.length - commonPrefixLen k1 firstKey) + 2 - 1 =
        (pre ++ u16be (commonPrefixLen k1 firstKey) ++
          u16be (k1.length - commonPrefixLen k1 firstKey) ++
          k1.drop (commonPrefixLen k1 firstKey)).length + 1 := by
      simp [u16be_length] <;> omega
    rw [h1, h2]
    exact readU16_at2
      (pre ++ u16be (commonPrefixLen k1 firstKey) ++
        u16be (k1.length - commonPrefixLen k1 firstKey) ++
        k1.drop (commonPrefixLen k1 firstKey))
      (by simpa [List.append_assoc] using hdata) rfl hv
  have hval : (blk.data.drop
      (pre.length + 4 + (k1.length - commonPrefixLen k1 firstKey) + 2)).take v1.length =
      v1 := by
    exact slice_at2
      (pre ++ u16be (commonPrefixLen k1 firstKey) ++
        u16be (k1.length - commonPrefixLen k1 firstKey) ++
        k1.drop (commonPrefixLen k1 firstKey) ++ u16be v1.length)
      v1
      (by simpa [List.append_assoc] using hdata)
      (by simp [u16be_length] <;> omega) rfl
  have htk : firstKey.take (commonPrefixLen k1 firstKey) ++
      k1.drop (commonPrefixLen k1 firstKey) = k1 := by
    rw [← commonPrefixLen_take k1 firstKey, List.take_append_drop]
  simp only [hov, hrl, hrest, hvs, hval, htk]
  rfl

theorem offsetsFrom_length (fk : Bytes) (start : Nat) (l : List KeyValuePair) :
    (offsetsFrom fk start l).length = l.length := by
  induction l generalizing start with
  | nil => rfl
  | cons kv rest ih => simp [offsetsFrom, ih]

theorem mem_offsetsFrom_le {fk : Bytes} {start : Nat} {l : List KeyValuePair} :
    ∀ x ∈ offsetsFrom fk start l, x ≤ start + ((l.map (encSubEntry fk)).flatten).length := by
  induction l generalizing start with
  | nil => intro x hx; cases hx
  | cons kv rest ih =>
    intro x hx
    rcases hx with _ | ⟨_, hx⟩
    · omega
    · have := ih _ hx
      simp only [List.map_cons, List.flatten_cons, List.length_append]
      omega

theorem offsetsFrom_seg (fk : Bytes) (start : Nat) (rest : List KeyValuePair) :
    ∀ (j : Nat) (kv : KeyValuePair), rest.get? j = some kv →
      ∃ pre suf : List Nat,
        (rest.map (encSubEntry fk)).flatten = pre ++ encSubEntry fk kv ++ suf ∧
          start + pre.length = (offsetsFrom fk start rest).getD j 0 := by
  induction rest generalizing start with
  | nil => intro j kv h; cases h
  | cons hd tl ih =>
    intro j kv h
    cases j with
    | zero =>
      rw [List.get?_cons_zero, Option.some.injEq] at h
      subst h
      refine ⟨[], (tl.map (encSubEntry fk)).flatten, by simp, by simp [offsetsFrom]⟩
    | succ j =>
      rw [List.get?_cons_succ] at h
      obtain ⟨pre, suf, he, hl⟩ := ih (start + (encSubEntry fk hd).length) j kv h
      refine ⟨encSubEntry fk hd ++ pre, suf, ?_, ?_⟩
      · simp only [List.map_cons, List.flatten_cons, he, List.append_assoc]
      · simp only [offsetsFrom, List.getD_cons_succ, List.length_append]
        omega

theorem built_first_key {b : BlockBuilder} {kv0 : KeyValuePair} {rest : List KeyValuePair}
    (hinv : BuilderInv b kv0 rest) :
    b.build.get_first_key = kv0.key.key := by
  obtain ⟨hfk, hdata, hoffs, hcur, hbound, hlens⟩ := hinv
  have hkl : kv0.key.key.length ≤ 65535 := (hlens kv0 (by simp)).1
  unfold Block.get_first_key BlockBuilder.build
  simp only
  have hdata2 : b.data = [] ++ u16be kv0.key.key.length ++
      (kv0.key.key ++ (u16be kv0.value.length ++ (kv0.value ++
        (rest.map (encSubEntry kv0.key.key)).flatten))) := by
    simpa [encFirstEntry, List.append_assoc] using hdata
  have hks : u16FromBe (b.data.getD 0 0) (b.data.getD (0 + 1) 0) = kv0.key.key.length :=
    readU16_at2 [] hdata2 rfl hkl
  simp only [Nat.zero_add] at hks
  rw [hks]
  exact slice_at2 (u16be kv0.key.key.length) kv0.key.key
    (by simpa [List.append_assoc] using hdata2) rfl rfl

theorem built_parse {b : BlockBuilder} {kv0 : KeyValuePair} {rest : List KeyValuePair}
    (hinv : BuilderInv b kv0 rest)
    (hts : ∀ kv ∈ kv0 :: rest, kv.key.timestampMs = 0) :
    ∀ i, i ≤ rest.length + 1 →
      parseCurrentKv b.build kv0.key.key i = (kv0 :: rest).get? i := by
  obtain ⟨hfk, hdata, hoffs, hcur, hbound, hlens⟩ := hinv
  have hofflen : b.build.offsets.length = rest.length + 1 := by
    simp [BlockBuilder.build, hoffs, offsetsFrom_length]
  intro i hi
  rcases Nat.lt_or_ge i (rest.length + 1) with hlt | hge
  · cases i with
    | zero =>
      rw [parse_first_entry b.build kv0.key.key
        (by simpa [BlockBuilder.build] using hdata :
          (BlockBuilder.build b).data = encFirstEntry kv0 ++
            (rest.map (encSubEntry kv0.key.key)).flatten)
        (by simp [BlockBuilder.build, hoffs])
        (by omega)
        (hlens kv0 (by simp)).1 (hlens kv0 (by simp)).2
        (hts kv0 (by simp))]
      rfl
    | succ j =>
      have hj : j < rest.length := by omega
      have hkvj : ∃ kvj, rest.get? j = some kvj := by
        rw [List.get?_eq_get hj]
        exact ⟨rest.get ⟨j, hj⟩, rfl⟩
      obtain ⟨kvj, hkvj⟩ := hkvj
      obtain ⟨pre, suf, he, hl⟩ :=
        offsetsFrom_seg kv0.key.key (encFirstEntry kv0).length rest j kvj hkvj
      have hmem : kvj ∈ rest := List.get?_mem hkvj
      rw [parse_sub_entry (encFirstEntry kv0 ++ pre) suf b.build
        (i := j + 1)
        (by omega) (by omega)
        (by simp only [BlockBuilder.build, hdata, he, List.append_assoc])
        (by simp only [BlockBuilder.build, hoffs, List.getD_cons_succ,
              List.length_append]
            omega)
        (hlens kvj (by simp [hmem])).1 (hlens kvj (by simp [hmem])).2
        (hts kvj (by simp [hmem]))]
      rw [List.get?_cons_succ, hkvj]
  · have hieq : i = rest.length + 1 := by omega
    subst hieq
    unfold parseCurrentKv
    rw [if_pos hofflen.symm]
    exact (List.get?_eq_none.mpr (by simp)).symm

theorem blockIterateAux_spec (blk : Block) (fk : Bytes) (S : List KeyValuePair)
    (hparse : ∀ i, i ≤ S.length → parseCurrentKv blk fk i = S.get? i) :
    ∀ (fuel i : Nat), i ≤ S.length → S.length - i < fuel →
      blockIterateAux blk fk fuel i = S.drop i := by
  intro fuel
  induction fuel with
  | zero => intro i hi hf; omega
  | succ fuel ih =>
    intro i hi hf
    unfold blockIterateAux
    rcases Nat.lt_or_ge i S.length with hlt | hge
    · have hkv : ∃ kv, S.get? i = some kv := by
        rw [List.get?_eq_get hlt]
        exact ⟨S.get ⟨i, hlt⟩, rfl⟩
      obtain ⟨kv, hkv⟩ := hkv
      rw [hparse i hi, hkv]
      rw [ih (i + 1) (by omega) (by omega)]
      rw [List.drop_eq_get_cons hlt]
      rw [List.get?_eq_get hlt] at hkv
      rw [Option.some.injEq] at hkv
      rw [hkv]
    · have hieq : i = S.length := by omega
      subst hieq
      rw [hparse S.length (by omega)]
      rw [List.get?_eq_none.mpr (le_refl _)]
      simp

theorem blockIterate_built {b : BlockBuilder} {kv0 : KeyValuePair}
    {rest : List KeyValuePair} (hinv : BuilderInv b kv0 rest)
    (hts : ∀ kv ∈ kv0 :: rest, kv.key.timestampMs = 0) :
    blockIterate b.build = kv0 :: rest := by
  unfold blockIterate
  rw [built_first_key hinv]
  have hofflen : b.build.offsets.length = rest.length + 1 := by
    simp [BlockBuilder.build, hinv.hoffs, offsetsFrom_length]
  rw [hofflen]
  have hres := blockIterateAux_spec b.build kv0.key.key (kv0 :: rest)
    (fun i hi => built_parse hinv hts i (by simpa using hi))
    (rest.length + 1 + 1) 0 (by simp) (by simp)
  simpa using hres

theorem built_decode_encode {b : BlockBuilder} {kv0 : KeyValuePair}
    {rest : List KeyValuePair} (hinv : BuilderInv b kv0 rest) :
    Block.decode (Block.encode b.build) = b.build := by
  have hflatdata : (encFirstEntry kv0).length +
      ((rest.map (encSubEntry kv0.key.key)).flatten).length = b.data.length := by
    rw [hinv.hdata]
    simp
  have hoffs_le : ∀ o ∈ b.offsets, o ≤ 65535 := by
    intro o ho
    rw [hinv.hoffs] at ho
    rcases ho with _ | ⟨_, ho⟩
    · omega
    · have hle := mem_offsetsFrom_le _ ho
      have hb := hinv.hbound
      omega
  have hb : b.build = ⟨b.data, b.offsets, b.data.length⟩ := by
    simp [BlockBuilder.build, hinv.hcur]
  rw [hb]
  exact decode_encode hinv.hbound hoffs_le

/-- C4: for every block built by the block builder from a strictly ascending
key sequence S — with the data-model side conditions that keys are non-empty
byte strings, each key and value is at most 65535 bytes (enforced by the
builder's `u16` conversions; implied here by the success of the build), and
entry timestamps are zero as on the write path — `Block::decode ∘
Block::encode` is the identity on the built block, and iterating the decoded
block via `parse_current_kv` (reconstructing each subsequent key as the first
`overlap_len` bytes of the block's first key concatenated with the stored
rest bytes) yields exactly the entries of S in order. -/
theorem c4_block_roundtrip (blockSize : Nat) (S : List KeyValuePair) (blk : Block)
    (hasc : List.Chain' (fun a b => bytesLtB a.key.key b.key.key = true) S)
    (hkeys : ∀ kv ∈ S, kv.key.key ≠ [])
    (hts : ∀ kv ∈ S, kv.key.timestampMs = 0)
    (hbuild : buildBlockList blockSize S = Except.ok blk) :
    Block.decode (Block.encode blk) = blk ∧
      blockIterate (Block.decode (Block.encode blk)) = S := by
  cases S with
  | nil =>
    have hblk : blk = ⟨[], [], 0⟩ := by
      simp only [buildBlockList, addAll, BlockBuilder.new, Except.map,
        Except.ok.injEq] at hbuild
      exact hbuild.symm
    subst hblk
    exact ⟨by decide, by decide⟩
  | cons kv0 rest =>
    obtain ⟨b, hinv, hblk⟩ := buildBlockList_inv (hkeys kv0 (by simp)) hbuild
    subst hblk
    have hde := built_decode_encode hinv
    refine ⟨hde, ?_⟩
    rw [hde]
    exact blockIterate_built hinv hts

theorem c4_block_roundtrip_witness :
    Block.decode (Block.encode c4Block) = c4Block ∧
      blockIterate (Block.decode (Block.encode c4Block)) = c4Entries :=
  c4_block_roundtrip 32 c4Entries c4Block
    (List.chain'_cons.mpr ⟨by decide, List.chain'_singleton _⟩)
    (by decide) (by decide) (by decide)

theorem lowerBound_le (key : Bytes) (S : List KeyValuePair) :
    lowerBound key S ≤ S.length := by
  induction S with
  | nil => simp [lowerBound]
  | cons kv tl ih =>
    unfold lowerBound
    split_ifs
    · simpa using ih
    · simp

theorem lowerBound_lt_true (key : Bytes) {S : List KeyValuePair} :
    ∀ (j : Nat) (kv : KeyValuePair), S.get? j = some kv → j < lowerBound key S →
      bytesLtB kv.key.key key = true := by
  induction S with
  | nil => intro j kv h; cases h
  | cons hd tl ih =>
    intro j kv h hlb
    unfold lowerBound at hlb
    split_ifs at hlb with hkv
    · cases j with
      | zero =>
        rw [List.get?_cons_zero, Option.some.injEq] at h
        rw [← h]
        exact hkv
      | succ j =>
        rw [List.get?_cons_succ] at h
        exact ih j kv h (by omega)
    · omega

theorem lowerBound_at_false {key : Bytes} {S : List KeyValuePair} {kv : KeyValuePair}
    (h : S.get? (lowerBound key S) = some kv) :
    bytesLtB kv.key.key key = false := by
  induction S with
  | nil => cases h
  | cons hd tl ih =>
    unfold lowerBound at h
    split_ifs at h with hkv
    · rw [List.get?_cons_succ] at h
      exact ih h
    · rw [List.get?_cons_zero, Option.some.injEq] at h
      rw [← h]
      simpa using hkv

theorem chain'_to_pairwise {S : List KeyValuePair}
    (h : List.Chain' (fun a b => bytesLtB a.key.key b.key.key = true) S) :
    S.Pairwise (fun a b => bytesLtB a.key.key b.key.key = true) := by
  haveI : IsTrans KeyValuePair (fun a b => bytesLtB a.key.key b.key.key = true) :=
    ⟨fun _ _ _ hab hbc => bytesLtB_trans hab hbc⟩
  exact List.chain'_iff_pairwise.mp h

theorem pairwise_get?_rel {R : KeyValuePair → KeyValuePair → Prop}
    {S : List KeyValuePair} (hp : S.Pairwise R) {i j : Nat} {a b : KeyValuePair}
    (hij : i < j) (ha : S.get? i = some a) (hb : S.get? j = some b) : R a b := by
  rw [List.get?_eq_some] at ha hb
  obtain ⟨hi, hga⟩ := ha
  obtain ⟨hj, hgb⟩ := hb
  have hr := List.pairwise_iff_get.mp hp ⟨i, hi⟩ ⟨j, hj⟩ (Fin.mk_lt_mk.mpr hij)
  rw [hga, hgb] at hr
  exact hr

theorem seekLoop_correct {blk : Block} {fk key : Bytes} {S : List KeyValuePair}
    (hparse : ∀ i, i ≤ S.length → parseCurrentKv blk fk i = S.get? i)
    (hsort : S.Pairwise (fun a b => bytesLtB a.key.key b.key.key = true))
    (hS : S ≠ []) :
    ∀ (fuel lo hi : Nat), lo ≤ hi → hi ≤ S.length - 1 → hi - lo < fuel →
      (∀ (j : Nat) (kv : KeyValuePair), S.get? j = some kv → j < lo →
        bytesLtB kv.key.key key = true) →
      (hi = S.length - 1 ∨
        ∃ kvh, S.get? hi = some kvh ∧ bytesCmp kvh.key.key key = Ordering.gt) →
      seekLoop blk fk key fuel lo hi = min (lowerBound key S) (S.length - 1) := by
  have hlen : 0 < S.length := List.length_pos.mpr hS
  intro fuel
  induction fuel with
  | zero => intro lo hi h1 h2 h3; omega
  | succ fuel ih =>
    intro lo hi hle hhi hfuel hinv2 hinv3
    unfold seekLoop
    by_cases hlt : lo < hi
    · rw [if_pos hlt]
      have hmidlt : (lo + hi) / 2 < hi := by omega
      have hmidge : lo ≤ (lo + hi) / 2 := by omega
      have hmidlen : (lo + hi) / 2 < S.length := by omega
      have hkvm : ∃ kvm, S.get? ((lo + hi) / 2) = some kvm := by
        rw [List.get?_eq_get hmidlen]
        exact ⟨S.get ⟨(lo + hi) / 2, hmidlen⟩, rfl⟩
      obtain ⟨kvm, hkvm⟩ := hkvm
      simp only [hparse ((lo + hi) / 2) (Nat.le_of_lt hmidlen), hkvm]
      rcases hcmp : bytesCmp kvm.key.key key with _ | _ | _
      · -- Less: lo := mid + 1
        refine ih ((lo + hi) / 2 + 1) hi (by omega) hhi (by omega) ?_ hinv3
        intro j kv hj hjlt
        rcases Nat.lt_or_ge j ((lo + hi) / 2) with hj2 | hj2
        · have hrel := pairwise_get?_rel hsort hj2 hj hkvm
          exact bytesLtB_trans hrel (bytesLtB_iff.mpr hcmp)
        · have hjeq : j = (lo + hi) / 2 := by omega
          subst hjeq
          rw [hj] at hkvm
          rw [Option.some.injEq] at hkvm
          subst hkvm
          exact bytesLtB_iff.mpr hcmp
      · -- Equal: early return at mid
        have hkey : kvm.key.key = key := bytesCmp_eq_iff.mp hcmp
        have hlb1 : lowerBound key S ≤ (lo + hi) / 2 := by
          by_contra hc
          have hcontra := lowerBound_lt_true key ((lo + hi) / 2) kvm hkvm (by omega)
          rw [hkey, bytesLtB_irrefl] at hcontra
          cases hcontra
        have hlb2 : (lo + hi) / 2 ≤ lowerBound key S := by
          by_contra hc
          have hlblt : lowerBound key S < (lo + hi) / 2 := by omega
          have hlblen : lowerBound key S < S.length := by omega
          have hkvlb : ∃ kvlb, S.get? (lowerBound key S) = some kvlb := by
            rw [List.get?_eq_get hlblen]
            exact ⟨S.get ⟨lowerBound key S, hlblen⟩, rfl⟩
          obtain ⟨kvlb, hkvlb⟩ := hkvlb
          have hfalse := lowerBound_at_false hkvlb
          have hrel := pairwise_get?_rel hsort hlblt hkvlb hkvm
          rw [hkey] at hrel
          rw [hrel] at hfalse
          cases hfalse
        have hlbeq : lowerBound key S = (lo + hi) / 2 := by omega
        show (lo + hi) / 2 = min (lowerBound key S) (S.length - 1)
        omega
      · -- Greater: hi := mid
        refine ih lo ((lo + hi) / 2) (by omega) (by omega) (by omega) hinv2 ?_
        exact Or.inr ⟨kvm, hkvm, hcmp⟩
    · rw [if_neg hlt]
      have hloeq : lo = hi := by omega
      subst hloeq
      have hdiv : (lo + lo) / 2 = lo := by omega
      rw [hdiv]
      have hlb_ge : lo ≤ lowerBound key S := by
        by_contra hc
        have hlblt : lowerBound key S < lo := by omega
        have hlblen : lowerBound key S < S.length := by omega
        have hkvlb : ∃ kvlb, S.get? (lowerBound key S) = some kvlb := by
          rw [List.get?_eq_get hlblen]
          exact ⟨S.get ⟨lowerBound key S, hlblen⟩, rfl⟩
        obtain ⟨kvlb, hkvlb⟩ := hkvlb
        have hfalse := lowerBound_at_false hkvlb
        have htrue := hinv2 (lowerBound key S) kvlb hkvlb hlblt
        rw [htrue] at hfalse
        cases hfalse
      rcases hinv3 with hhi2 | ⟨kvh, hgeth, hgt⟩
      · subst hhi2
        omega
      · have hfa : bytesLtB kvh.key.key key = false := by
          unfold bytesLtB
          rw [hgt]
        have hlb_le : lowerBound key S ≤ lo := by
          by_contra hc
          have htr := lowerBound_lt_true key lo kvh hgeth (by omega)
          rw [htr] at hfa
          cases hfa
        omega

/-- C5 (amended): for every non-empty block built from a strictly ascending
key sequence S and every key k, `seek_to_key k` positions the cursor at index
`min (lowerBound k S) (S.length - 1)`: the first entry whose key is ≥ k when
such an entry exists (the exact match on ties), but the LAST valid index —
not one past it — when every key of the block is < k; in that case `peek`
and `next` still return that last entry (whose key is < k), as the second
conjunct shows by evaluating `parse_current_kv` at the landed index. -/
theorem c5_seek_to_key (blockSize : Nat) (S : List KeyValuePair) (blk : Block)
    (key : Bytes) (hS : S ≠ [])
    (hasc : List.Chain' (fun a b => bytesLtB a.key.key b.key.key = true) S)
    (hkeys : ∀ kv ∈ S, kv.key.key ≠ [])
    (hts : ∀ kv ∈ S, kv.key.timestampMs = 0)
    (hbuild : buildBlockList blockSize S = Except.ok blk) :
    seek_to_key blk key = min (lowerBound key S) (S.length - 1) ∧
      parseCurrentKv blk blk.get_first_key (seek_to_key blk key) =
        S.get? (min (lowerBound key S) (S.length - 1)) := by
  cases S with
  | nil => cases hS rfl
  | cons kv0 rest =>
    obtain ⟨b, hinv, hblk⟩ := buildBlockList_inv (hkeys kv0 (by simp)) hbuild
    subst hblk
    have hfk := built_first_key hinv
    have hofflen : b.build.offsets.length = rest.length + 1 := by
      simp [BlockBuilder.build, hinv.hoffs, offsetsFrom_length]
    have hparse : ∀ i, i ≤ (kv0 :: rest).length →
        parseCurrentKv b.build kv0.key.key i = (kv0 :: rest).get? i :=
      fun i hi => built_parse hinv hts i (by simpa using hi)
    have hpw := chain'_to_pairwise hasc
    have hseek : seek_to_key b.build key =
        min (lowerBound key (kv0 :: rest)) ((kv0 :: rest).length - 1) := by
      unfold seek_to_key
      rw [hfk, hofflen]
      exact seekLoop_correct hparse hpw (by simp) (rest.length + 1) 0
        (rest.length + 1 - 1) (by omega) (by simp) (by omega)
        (fun j kv h hj => absurd hj (by omega)) (Or.inl (by simp))
    refine ⟨hseek, ?_⟩
    rw [hseek, hfk]
    apply hparse
    have hle := lowerBound_le key (kv0 :: rest)
    simp only [List.length_cons] at hle ⊢
    omega

/-- C5 counterexample to the claim as stated: in the single-entry block
`c5Block` every key is < [98], yet `seek_to_key [98]` leaves the cursor at
index 0 — the last valid index, NOT one past it (`offsets.len()` = 1) — and
a subsequent `peek`/`next` yields the last entry instead of nothing. -/
theorem c5_counterexample :
    buildBlockList 16 c5Entries = Except.ok c5Block ∧
      (∀ kv ∈ c5Entries, bytesLtB kv.key.key [98] = true) ∧
      seek_to_key c5Block [98] = 0 ∧
      c5Block.offsets.length = 1 ∧
      parseCurrentKv c5Block c5Block.get_first_key (seek_to_key c5Block [98]) =
        some ⟨TimestampedKey.new [97], [1]⟩ := by
  decide

theorem c5_seek_to_key_witness :
    seek_to_key c4Block [107, 50] =
      min (lowerBound [107, 50] c4Entries) (c4Entries.length - 1) ∧
      parseCurrentKv c4Block c4Block.get_first_key (seek_to_key c4Block [107, 50]) =
        c4Entries.get? (min (lowerBound [107, 50] c4Entries) (c4Entries.length - 1)) :=
  c5_seek_to_key 32 c4Entries c4Block [107, 50] (by decide)
    (List.chain'_cons.mpr ⟨by decide, List.chain'_singleton _⟩)
    (by decide) (by decide) (by decide)

/-- C7: the code has swapped comparisons in `disjoint_greater`.  At query
lower bound Included "k2" (upper unbounded) against the target range
["k0", "k2"], the ranges intersect at "k2" — the specification's formula
(`rangeOverlapSpec`) yields true — but `range_overlap` returns false, because
its Included arm uses `lower >= target_upper` where closed-interval
semantics requires `lower > target_upper`.  In consequence a scan whose
included lower bound equals an SST's last key skips that SST and silently
drops the key from the scan, although `get` still finds it. -/
theorem c7_range_overlap_failing :
    range_overlap (Bound.included [107, 50]) Bound.unbounded
        (TimestampedKey.new [107, 48]) (TimestampedKey.new [107, 50]) = false ∧
      rangeOverlapSpec (Bound.included [107, 50]) Bound.unbounded
        [107, 48] [107, 50] = true := by
  decide

/-- C8: bloom soundness — for every key inserted by `from_keys`,
`maybe_contains` returns true (no false negatives), for every bit-array
length m > 0, probe count k, and 64-bit hash function (the source computes m
and k by floating-point sizing and hashes with the external xxh3, both of
which are parameters of the embedding; the theorem covers every
instantiation) — and `maybe_contains bf key` returns false exactly when at
least one of the k probed bits is zero. -/
theorem c8_bloom_no_false_negatives (h64 : Bytes → Nat) (m k : Nat)
    (keys : List TimestampedKey) (tk : TimestampedKey)
    (hm : 0 < m) (htk : tk ∈ keys) :
    maybe_contains h64 (from_keys h64 m k keys) tk.key = true ∧
      ∀ (bf : BloomFilter) (key : Bytes),
        (maybe_contains h64 bf key = false ↔
          ∃ i ∈ get_indices_for_key h64 key bf.bitVec.length bf.k,
            bf.bitVec.getD i false = false) := by
  constructor
  · unfold maybe_contains
    rw [from_keys_length]
    have hkk : (from_keys h64 m k keys).k = k := rfl
    rw [hkk]
    rw [List.all_eq_true]
    intro i hi
    exact from_keys_bit_set hm htk hi
  · intro bf key
    constructor
    · intro h
      unfold maybe_contains at h
      rw [← Bool.not_eq_true, List.all_eq_true] at h
      push_neg at h
      obtain ⟨i, hi, hb⟩ := h
      exact ⟨i, hi, by simpa using hb⟩
    · intro h
      obtain ⟨i, hi, hb⟩ := h
      unfold maybe_contains
      rw [← Bool.not_eq_true, List.all_eq_true]
      push_neg
      exact ⟨i, hi, by simpa [List.getD, List.get?_eq_getElem?] using hb⟩

theorem c8_bloom_witness :
    maybe_contains (fun _ => 0)
        (from_keys (fun _ => 0) 8 2 [TimestampedKey.new [1]])
        (TimestampedKey.new [1]).key = true ∧
      ∀ (bf : BloomFilter) (key : Bytes),
        (maybe_contains (fun _ => 0) bf key = false ↔
          ∃ i ∈ get_indices_for_key (fun _ => 0) key bf.bitVec.length bf.k,
            bf.bitVec.getD i false = false) :=
  c8_bloom_no_false_negatives (fun _ => 0) 8 2 [TimestampedKey.new [1]]
    (TimestampedKey.new [1]) (by decide) (by decide)

theorem heapMinAux_none {l : List (KeyValuePair × Nat)} :
    heapMinAux l = none ↔ l = [] := by
  cases l with
  | nil => simp [heapMinAux]
  | cons x rest =>
    simp only [heapMinAux]
    rcases h : heapMinAux rest with _ | y
    · simp
    · simp only [h]
      split_ifs
      all_goals simp

theorem hpLeB_refl (a : KeyValuePair × Nat) : hpLeB a a = true :=
  cmpLeB_iff.mpr (Or.inr (hpCmp_eq_iff.mpr rfl))

theorem heapMinAux_mem {l : List (KeyValuePair × Nat)} {x : KeyValuePair × Nat}
    (h : heapMinAux l = some x) : x ∈ l := by
  induction l generalizing x with
  | nil => cases h
  | cons hd rest ih =>
    simp only [heapMinAux] at h
    rcases hm : heapMinAux rest with _ | y
    · simp only [hm, Option.some.injEq] at h
      simp [← h]
    · simp only [hm] at h
      split_ifs at h with hle
      · rw [Option.some.injEq] at h
        simp [← h]
      · rw [Option.some.injEq] at h
        subst h
        exact List.mem_cons_of_mem hd (ih hm)

theorem heapMinAux_min {l : List (KeyValuePair × Nat)} {x : KeyValuePair × Nat}
    (h : heapMinAux l = some x) : ∀ y ∈ l, hpLeB x y = true := by
  induction l generalizing x with
  | nil => cases h
  | cons hd rest ih =>
    intro y hy
    simp only [heapMinAux] at h
    rcases hm : heapMinAux rest with _ | z
    · simp only [hm, Option.some.injEq] at h
      subst h
      rw [heapMinAux_none] at hm
      subst hm
      rcases hy with _ | ⟨_, hy⟩
      · exact hpLeB_refl _
      · cases hy
    · simp only [hm] at h
      split_ifs at h with hle
      · rw [Option.some.injEq] at h
        subst h
        rcases hy with _ | ⟨_, hy⟩
        · exact hpLeB_refl _
        · exact hpLeB_trans hle (ih hm y hy)
      · rw [Option.some.injEq] at h
        subst h
        rcases hy with _ | ⟨_, hy⟩
        · rcases hpLeB_total hd z with ht | ht
          · exact absurd ht hle
          · exact ht
        · exact ih hm y hy

theorem headsFrom_nil_iff {off : Nat} {streams : List (List KeyValuePair)} :
    headsFrom off streams = [] ↔ ∀ s ∈ streams, s = [] := by
  induction streams generalizing off with
  | nil => simp [headsFrom]
  | cons s rest ih =>
    cases s with
    | nil => simp [headsFrom, ih]
    | cons kv t => simp [headsFrom]

theorem taggedFrom_nil {off : Nat} {streams : List (List KeyValuePair)}
    (h : ∀ s ∈ streams, s = []) : taggedFrom off streams = [] := by
  induction streams generalizing off with
  | nil => rfl
  | cons s rest ih =>
    have hs := h s (by simp)
    subst hs
    simp only [taggedFrom, List.map_nil, List.nil_append]
    exact ih (fun s2 hs2 => h s2 (by simp [hs2]))

theorem mem_headsFrom {streams : List (List KeyValuePair)}
    {kv : KeyValuePair} {i : Nat} :
    ∀ {off : Nat}, (kv, i) ∈ headsFrom off streams →
      off ≤ i ∧ ∃ t, streams.getD (i - off) [] = kv :: t := by
  induction streams with
  | nil => intro off h; cases h
  | cons s rest ih =>
    intro off h
    cases s with
    | nil =>
      simp only [headsFrom, List.nil_append] at h
      obtain ⟨hle, t, ht⟩ := ih h
      refine ⟨by omega, t, ?_⟩
      have hub : i - off = (i - (off + 1)) + 1 := by omega
      rw [hub, List.getD_cons_succ]
      exact ht
    | cons hd tl =>
      simp only [headsFrom, List.cons_append, List.nil_append] at h
      rcases h with _ | ⟨_, h⟩
      · refine ⟨le_refl _, tl, ?_⟩
        rw [Nat.sub_self, List.getD_cons_zero]
      · obtain ⟨hle, t, ht⟩ := ih h
        refine ⟨by omega, t, ?_⟩
        have hub : i - off = (i - (off + 1)) + 1 := by omega
        rw [hub, List.getD_cons_succ]
        exact ht

theorem mergeHeapMin_head {streams : List (List KeyValuePair)}
    {kv : KeyValuePair} {i : Nat} (h : mergeHeapMin streams = some (kv, i)) :
    ∃ t, streams.getD i [] = kv :: t := by
  have hmem := heapMinAux_mem h
  obtain ⟨_, t, ht⟩ := mem_headsFrom hmem
  exact ⟨t, by simpa using ht⟩

theorem sorted_head_le {s : List KeyValuePair} {hd y : KeyValuePair}
    (hsort : List.Chain' (fun a b => kvLeB a b = true) (hd :: s))
    (hy : y ∈ hd :: s) : kvLeB hd y = true := by
  haveI : IsTrans KeyValuePair (fun a b => kvLeB a b = true) :=
    ⟨fun _ _ _ hab hbc => kvLeB_trans hab hbc⟩
  have hpw := List.chain'_iff_pairwise.mp hsort
  rcases hy with _ | ⟨_, hy⟩
  · exact cmpLeB_iff.mpr (Or.inr (kvCmp_eq_iff.mpr rfl))
  · exact (List.pairwise_cons.mp hpw).1 y hy

theorem hpLeB_of_kvLeB {a b : KeyValuePair} {j : Nat} (h : kvLeB a b = true) :
    hpLeB (a, j) (b, j) = true := by
  rw [cmpLeB_iff] at h ⊢
  unfold hpCmp
  simp only
  rcases h with h | h
  · rw [h]
    exact Or.inl rfl
  · rw [h]
    rw [show natCmp j j = Ordering.eq from natCmp_eq_iff.mpr rfl]
    exact Or.inr rfl

theorem taggedFrom_min_le {streams : List (List KeyValuePair)}
    (hsort : ∀ s ∈ streams, List.Chain' (fun a b => kvLeB a b = true) s) :
    ∀ {off : Nat} {y : KeyValuePair} {j : Nat}, (y, j) ∈ taggedFrom off streams →
      ∃ hd, (hd, j) ∈ headsFrom off streams ∧ kvLeB hd y = true := by
  induction streams with
  | nil => intro off y j h; cases h
  | cons s rest ih =>
    intro off y j h
    simp only [taggedFrom, List.mem_append] at h
    rcases h with h | h
    · rw [List.mem_map] at h
      obtain ⟨kv2, hkv2, heq⟩ := h
      rw [Prod.mk.injEq] at heq
      obtain ⟨hy, hj⟩ := heq
      subst hy
      subst hj
      cases s with
      | nil => cases hkv2
      | cons hd tl =>
        refine ⟨hd, ?_, sorted_head_le (hsort _ (by simp)) hkv2⟩
        simp [headsFrom]
    · obtain ⟨hd, hmem, hle⟩ := ih (fun s2 hs2 => hsort s2 (by simp [hs2])) h
      refine ⟨hd, ?_, hle⟩
      cases s with
      | nil => simpa [headsFrom] using hmem
      | cons kv2 tl => simp [headsFrom, hmem]

theorem totalLen_advance {streams : List (List KeyValuePair)} :
    ∀ (i : Nat) (kv : KeyValuePair) (t : List KeyValuePair),
      streams.getD i [] = kv :: t →
      totalLen streams = totalLen (advance streams i) + 1 := by
  induction streams with
  | nil => intro i kv t h; simp at h
  | cons s rest ih =>
    intro i kv t h
    cases i with
    | zero =>
      rw [List.getD_cons_zero] at h
      subst h
      simp [totalLen, advance, List.set_cons_zero]
      omega
    | succ j =>
      rw [List.getD_cons_succ] at h
      have := ih j kv t h
      simp only [totalLen, advance, List.set_cons_succ, List.map_cons,
        List.sum_cons] at this ⊢
      have hgd : (s :: rest).getD (j + 1) [] = rest.getD j [] := List.getD_cons_succ
      rw [hgd]
      omega

theorem sorted_advance {streams : List (List KeyValuePair)} {i : Nat}
    (hsort : ∀ s ∈ streams, List.Chain' (fun a b => kvLeB a b = true) s) :
    ∀ s ∈ advance streams i, List.Chain' (fun a b => kvLeB a b = true) s := by
  intro s hs
  unfold advance at hs
  rcases List.mem_or_eq_of_mem_set hs with hs2 | hs2
  · exact hsort s hs2
  · subst hs2
    rcases hgd : streams.getD i [] with _ | ⟨kv, t⟩
    · simp
    · have hmem : kv :: t ∈ streams := by
        rcases Nat.lt_or_ge i streams.length with hlt | hge
        · rw [List.getD_eq_getElem _ _ hlt] at hgd
          rw [← hgd]
          exact List.getElem_mem _
        · rw [List.getD_eq_default _ _ hge] at hgd
          cases hgd
      exact (hsort _ hmem).tail

theorem taggedFrom_advance_perm {streams : List (List KeyValuePair)} :
    ∀ (off i : Nat) (kv : KeyValuePair) (t : List KeyValuePair),
      streams.getD i [] = kv :: t →
      List.Perm (taggedFrom off streams)
        ((kv, off + i) :: taggedFrom off (advance streams i)) := by
  induction streams with
  | nil => intro off i kv t h; simp at h
  | cons s rest ih =>
    intro off i kv t h
    cases i with
    | zero =>
      rw [List.getD_cons_zero] at h
      subst h
      simp only [advance, List.set_cons_zero, List.getD_cons_zero, taggedFrom,
        List.map_cons, List.cons_append, Nat.add_zero, List.tail_cons]
      exact List.Perm.refl _
    | succ j =>
      rw [List.getD_cons_succ] at h
      have hperm := ih (off + 1) j kv t h
      have hadv : advance (s :: rest) (j + 1) = s :: advance rest j := by
        simp [advance, List.set_cons_succ, List.getD_cons_succ]
      rw [hadv]
      simp only [taggedFrom]
      have h2 := List.Perm.append_left (s.map (fun kv2 => (kv2, off))) hperm
      have hidx : off + 1 + j = off + (j + 1) := by omega
      rw [hidx] at h2
      exact h2.trans (List.perm_middle)

theorem totalLen_zero {streams : List (List KeyValuePair)} (h : totalLen streams = 0) :
    ∀ s ∈ streams, s = [] := by
  intro s hs
  unfold totalLen at h
  rw [List.sum_eq_zero_iff] at h
  exact List.length_eq_zero.mp (h s.length (List.mem_map_of_mem List.length hs))

theorem mergeAllTagged_perm {streams : List (List KeyValuePair)} :
    ∀ fuel, totalLen streams ≤ fuel →
      List.Perm (mergeAllTagged fuel streams) (taggedFrom 0 streams) := by
  intro fuel
  induction fuel generalizing streams with
  | zero =>
    intro hf
    have hz : totalLen streams = 0 := by omega
    rw [taggedFrom_nil (totalLen_zero hz)]
    exact List.Perm.refl _
  | succ fuel ih =>
    intro hf
    unfold mergeAllTagged
    rcases hmin : mergeHeapMin streams with _ | ⟨kv, i⟩
    · unfold mergeHeapMin at hmin
      rw [heapMinAux_none] at hmin
      rw [taggedFrom_nil (headsFrom_nil_iff.mp hmin)]
    · obtain ⟨t, ht⟩ := mergeHeapMin_head hmin
      have hlen := totalLen_advance i kv t ht
      have hperm := taggedFrom_advance_perm 0 i kv t ht
      rw [Nat.zero_add] at hperm
      exact (List.Perm.cons (kv, i) (ih (by omega))).trans hperm.symm

theorem mergeAllTagged_sorted :
    ∀ (fuel : Nat) (streams : List (List KeyValuePair)),
      (∀ s ∈ streams, List.Chain' (fun a b => kvLeB a b = true) s) →
      totalLen streams ≤ fuel →
      List.Pairwise (fun a b => hpLeB a b = true) (mergeAllTagged fuel streams) := by
  intro fuel
  induction fuel with
  | zero =>
    intro streams hsort hf
    exact List.Pairwise.nil
  | succ fuel ih =>
    intro streams hsort hf
    unfold mergeAllTagged
    rcases hmin : mergeHeapMin streams with _ | ⟨kv, i⟩
    · exact List.Pairwise.nil
    · obtain ⟨t, ht⟩ := mergeHeapMin_head hmin
      have hlen := totalLen_advance i kv t ht
      refine List.Pairwise.cons ?_ (ih _ (sorted_advance hsort) (by omega))
      intro x hx
      have hxadv : x ∈ taggedFrom 0 (advance streams i) :=
        (mergeAllTagged_perm fuel (by omega)).mem_iff.mp hx
      have hperm := taggedFrom_advance_perm 0 i kv t ht
      rw [Nat.zero_add] at hperm
      have hxorig : x ∈ taggedFrom 0 streams :=
        hperm.symm.mem_iff.mp (List.mem_cons_of_mem _ hxadv)
      obtain ⟨y, j⟩ := x
      obtain ⟨hd, hhd, hle⟩ := taggedFrom_min_le hsort hxorig
      have hmin_le : hpLeB (kv, i) (hd, j) = true := heapMinAux_min hmin (hd, j) hhd
      exact hpLeB_trans hmin_le (hpLeB_of_kvLeB hle)

theorem taggedFrom_map_fst (off : Nat) (streams : List (List KeyValuePair)) :
    (taggedFrom off streams).map Prod.fst = streams.flatten := by
  induction streams generalizing off with
  | nil => rfl
  | cons s rest ih =>
    simp only [taggedFrom, List.map_append, List.map_map, ih, List.flatten_cons]
    congr 1
    show List.map (fun kv => kv) s = s
    exact List.map_id' s

theorem hpLeB_fst {a b : KeyValuePair × Nat} (h : hpLeB a b = true) :
    kvLeB a.1 b.1 = true := by
  rw [cmpLeB_iff] at h ⊢
  unfold hpCmp at h
  rcases h with h | h
  · rw [Ordering.then_eq_lt_iff] at h
    rcases h with h | ⟨h, _⟩
    · exact Or.inl h
    · exact Or.inr h
  · rw [Ordering.then_eq_eq_iff] at h
    exact Or.inr h.1

/-- C6 (amended): for every list of sorted input streams, `MergeIterator`
yields a sorted stream whose multiset of entries equals the disjoint union
of the inputs.  The tie-break, however, is by the full derived
`(KeyValuePair, usize)` order — key ascending, timestamp descending, then
VALUE bytes ascending, and only then source index — so on entries with equal
key and timestamp the smaller value wins first, and the lower-indexed source
wins only when key, timestamp and value are all equal.  This is captured by
the tagged stream (each entry paired with its source index, exactly the heap
elements) being sorted in that order while being a permutation of the tagged
disjoint union. -/
theorem c6_merge_iterator (streams : List (List KeyValuePair))
    (hsort : ∀ s ∈ streams, List.Chain' (fun a b => kvLeB a b = true) s) :
    List.Perm (mergeAllTagged (totalLen streams) streams) (taggedFrom 0 streams) ∧
      List.Pairwise (fun a b => hpLeB a b = true)
        (mergeAllTagged (totalLen streams) streams) ∧
      List.Perm (mergeAll streams) streams.flatten ∧
      List.Pairwise (fun a b => kvLeB a b = true) (mergeAll streams) := by
  have h1 := mergeAllTagged_perm (totalLen streams) (le_refl _)
  have h2 := mergeAllTagged_sorted (totalLen streams) streams hsort (le_refl _)
  refine ⟨h1, h2, ?_, ?_⟩
  · have hm := h1.map Prod.fst
    rw [taggedFrom_map_fst] at hm
    exact hm
  · unfold mergeAll
    rw [List.pairwise_map]
    exact h2.imp (fun h => hpLeB_fst h)

/-- C6 counterexample to the claim as stated: both sources hold entries with
equal key and equal timestamp, yet the merge yields SOURCE 1's entry (value
[97]) first — the heap compares the value bytes before the source index, so
the lower-indexed source does not win this tie. -/
theorem c6_counterexample :
    (⟨TimestampedKey.new [107], [98]⟩ : KeyValuePair).key =
        (⟨TimestampedKey.new [107], [97]⟩ : KeyValuePair).key ∧
      mergeAllTagged (totalLen c6Streams) c6Streams =
        [(⟨TimestampedKey.new [107], [97]⟩, 1), (⟨TimestampedKey.new [107], [98]⟩, 0)] := by
  decide

theorem c6_merge_iterator_witness :
    List.Perm (mergeAllTagged (totalLen c6SortedStreams) c6SortedStreams)
        (taggedFrom 0 c6SortedStreams) ∧
      List.Pairwise (fun a b => hpLeB a b = true)
        (mergeAllTagged (totalLen c6SortedStreams) c6SortedStreams) ∧
      List.Perm (mergeAll c6SortedStreams) c6SortedStreams.flatten ∧
      List.Pairwise (fun a b => kvLeB a b = true) (mergeAll c6SortedStreams) := by
  refine c6_merge_iterator c6SortedStreams ?_
  intro s hs
  rcases hs with _ | ⟨_, hs⟩
  · exact List.chain'_singleton _
  · rcases hs with _ | ⟨_, hs⟩
    · exact List.chain'_singleton _
    · cases hs

theorem skipInsert_ne_nil (l : List (Bytes × Bytes)) (k v : Bytes) :
    skipInsert l k v ≠ [] := by
  cases l with
  | nil => simp [skipInsert]
  | cons e rest =>
    obtain ⟨k2, v2⟩ := e
    cases h : bytesCmp k k2 <;> simp [skipInsert, h]

theorem mem_skipInsert {k v : Bytes} {x : Bytes × Bytes} {l : List (Bytes × Bytes)}
    (hx : x ∈ skipInsert l k v) : x = (k, v) ∨ x ∈ l := by
  induction l with
  | nil => simpa [skipInsert] using hx
  | cons e rest ih =>
    obtain ⟨k2, v2⟩ := e
    cases h : bytesCmp k k2 with
    | lt =>
      simp only [skipInsert, h, List.mem_cons] at hx
      rcases hx with hx | hx | hx
      · exact Or.inl hx
      · exact Or.inr (by simp [hx])
      · exact Or.inr (by simp [hx])
    | eq =>
      simp only [skipInsert, h, List.mem_cons] at hx
      rcases hx with hx | hx
      · exact Or.inl hx
      · exact Or.inr (by simp [hx])
    | gt =>
      simp only [skipInsert, h, List.mem_cons] at hx
      rcases hx with hx | hx
      · exact Or.inr (by simp [hx])
      · rcases ih hx with h2 | h2
        · exact Or.inl h2
        · exact Or.inr (by simp [h2])

theorem skipInsert_fresh_perm {l : List (Bytes × Bytes)} {k : Bytes} (v : Bytes)
    (hk : k ∉ l.map Prod.fst) :
    List.Perm (skipInsert l k v) ((k, v) :: l) := by
  induction l with
  | nil => simp [skipInsert]
  | cons e rest ih =>
    obtain ⟨k2, v2⟩ := e
    simp only [List.map_cons, List.mem_cons] at hk
    push_neg at hk
    obtain ⟨hne, hrest⟩ := hk
    cases h : bytesCmp k k2 with
    | lt => simp [skipInsert, h]
    | eq => exact absurd (bytesCmp_eq_iff.mp h) hne
    | gt =>
      simp only [skipInsert, h]
      exact (List.Perm.cons _ (ih hrest)).trans (List.Perm.swap _ _ _)

theorem skipInsert_pairwise {l : List (Bytes × Bytes)} {k v : Bytes}
    (hs : List.Pairwise (fun a b => bytesLtB a.1 b.1 = true) l) :
    List.Pairwise (fun a b => bytesLtB a.1 b.1 = true) (skipInsert l k v) := by
  induction l with
  | nil => simp [skipInsert]
  | cons e rest ih =>
    obtain ⟨k2, v2⟩ := e
    rw [List.pairwise_cons] at hs
    obtain ⟨hall, hrest⟩ := hs
    cases h : bytesCmp k k2 with
    | lt =>
      simp only [skipInsert, h]
      rw [List.pairwise_cons]
      refine ⟨?_, List.pairwise_cons.mpr ⟨hall, hrest⟩⟩
      intro x hx
      rcases List.mem_cons.mp hx with hx | hx
      · subst hx; exact bytesLtB_iff.mpr h
      · exact bytesLtB_trans (bytesLtB_iff.mpr h) (hall x hx)
    | eq =>
      have hk : k = k2 := bytesCmp_eq_iff.mp h
      subst hk
      simp only [skipInsert, h]
      exact List.pairwise_cons.mpr ⟨hall, hrest⟩
    | gt =>
      have hlt : bytesLtB k2 k = true := by
        rw [bytesLtB_iff, bytesCmp_swap k k2, h]; rfl
      simp only [skipInsert, h]
      rw [List.pairwise_cons]
      refine ⟨?_, ih hrest⟩
      intro x hx
      rcases mem_skipInsert hx with hx | hx
      · subst hx; exact hlt
      · exact hall x hx

theorem skipGet_eq_none_iff {l : List (Bytes × Bytes)} {k : Bytes} :
    skipGet l k = none ↔ k ∉ l.map Prod.fst := by
  induction l with
  | nil => simp [skipGet]
  | cons e rest ih =>
    obtain ⟨k2, v2⟩ := e
    by_cases h : k = k2
    · subst h; simp [skipGet]
    · simp [skipGet, h, ih]

theorem skipGet_of_mem {l : List (Bytes × Bytes)} {k v : Bytes}
    (hnd : (l.map Prod.fst).Nodup) (hm : (k, v) ∈ l) : skipGet l k = some v := by
  induction l with
  | nil => cases hm
  | cons e rest ih =>
    obtain ⟨k2, v2⟩ := e
    simp only [List.map_cons, List.nodup_cons] at hnd
    obtain ⟨hk2, hnd⟩ := hnd
    rcases List.mem_cons.mp hm with hm | hm
    · simp only [Prod.mk.injEq] at hm
      obtain ⟨rfl, rfl⟩ := hm
      simp [skipGet]
    · have hne : k ≠ k2 := fun he =>
        hk2 (he ▸ (List.mem_map.mpr ⟨(k, v), hm, rfl⟩))
      simp [skipGet, hne, ih hnd hm]

theorem skipGet_skipInsert_self {l : List (Bytes × Bytes)} {k v : Bytes} :
    skipGet (skipInsert l k v) k = some v := by
  induction l with
  | nil => simp [skipInsert, skipGet]
  | cons e rest ih =>
    obtain ⟨k2, v2⟩ := e
    cases h : bytesCmp k k2 with
    | lt => simp [skipInsert, h, skipGet]
    | eq => simp [skipInsert, h, skipGet]
    | gt =>
      have hne : k ≠ k2 := fun he => by simp [he, bytesCmp_self] at h
      simp [skipInsert, h, skipGet, hne, ih]

theorem find?_ge_of_mem {l : List (Bytes × Bytes)} {k v : Bytes}
    (hs : List.Pairwise (fun a b => bytesLtB a.1 b.1 = true) l)
    (hm : (k, v) ∈ l) :
    l.find? (fun e => bytesLeB k e.1) = some (k, v) := by
  induction l with
  | nil => cases hm
  | cons e rest ih =>
    obtain ⟨k2, v2⟩ := e
    rw [List.pairwise_cons] at hs
    obtain ⟨hall, hrest⟩ := hs
    rcases List.mem_cons.mp hm with hm | hm
    · simp only [Prod.mk.injEq] at hm
      obtain ⟨rfl, rfl⟩ := hm
      exact List.find?_cons_of_pos _ (by simp [bytesLeB_refl])
    · have hneg : bytesLeB k k2 = false := by
        rw [not_bytesLeB_iff]
        exact hall (k, v) hm
      rw [List.find?_cons_of_neg _ (by simp [hneg])]
      exact ih hrest hm

theorem sorted_headD_le {l : List (Bytes × Bytes)} {x : Bytes × Bytes}
    (hs : List.Pairwise (fun a b => bytesLtB a.1 b.1 = true) l)
    (hx : x ∈ l) (d : Bytes) :
    bytesLeB ((l.map Prod.fst).headD d) x.1 = true := by
  cases l with
  | nil => cases hx
  | cons e rest =>
    rw [List.pairwise_cons] at hs
    obtain ⟨hall, _⟩ := hs
    simp only [List.map_cons, List.headD_cons]
    rcases List.mem_cons.mp hx with hx | hx
    · subst hx; exact bytesLeB_refl _
    · exact bytesLeB_of_bytesLtB (hall x hx)

theorem sorted_le_getLastD :
    ∀ {l : List (Bytes × Bytes)},
      List.Pairwise (fun a b => bytesLtB a.1 b.1 = true) l →
      ∀ {x : Bytes × Bytes}, x ∈ l →
      ∀ d, bytesLeB x.1 ((l.map Prod.fst).getLastD d) = true := by
  intro l
  induction l with
  | nil => intro _ x hx; cases hx
  | cons e rest ih =>
    intro hs x hx d
    rw [List.pairwise_cons] at hs
    obtain ⟨hall, hrest⟩ := hs
    simp only [List.map_cons, List.getLastD_cons]
    rcases List.mem_cons.mp hx with hx | hx
    · subst hx
      cases rest with
      | nil => simp [bytesLeB_refl]
      | cons r rrest =>
        have h1 := ih hrest (List.mem_cons_self r rrest) x.1
        exact bytesLeB_trans
          (bytesLeB_of_bytesLtB (hall r (List.mem_cons_self r rrest))) h1
    · exact ih hrest hx e.1

theorem dropLast_append_of_getLast {α : Type} {l : List α} {a : α}
    (h : l.getLast? = some a) : l.dropLast ++ [a] = l := by
  induction l with
  | nil => cases h
  | cons x rest ih =>
    cases rest with
    | nil =>
      simp only [List.getLast?_singleton, Option.some.injEq] at h
      simp [h]
    | cons y rrest =>
      rw [List.getLast?_cons_cons] at h
      show x :: ((y :: rrest).dropLast ++ [a]) = x :: (y :: rrest)
      exact congrArg (List.cons x) (ih h)

theorem mem_of_getLast {α : Type} {l : List α} {a : α}
    (h : l.getLast? = some a) : a ∈ l := by
  rw [← dropLast_append_of_getLast h]
  exact List.mem_append_right _ (List.mem_singleton_self a)

theorem findFrozen_of_mem :
    ∀ {ms : List MemTable} {k v : Bytes},
      ((ms.map MemTable.entries).flatten.map Prod.fst).Nodup →
      (k, v) ∈ (ms.map MemTable.entries).flatten →
      findFrozen ms k = some v := by
  intro ms
  induction ms with
  | nil => intro k v _ hm; cases hm
  | cons m rest ih =>
    intro k v hnd hm
    simp only [List.map_cons, List.flatten_cons, List.map_append] at hnd hm
    rw [List.nodup_append] at hnd
    obtain ⟨hnd1, hnd2, hdisj⟩ := hnd
    rcases List.mem_append.mp hm with hm | hm
    · simp [findFrozen, MemTable.get, skipGet_of_mem hnd1 hm]
    · have hkr : k ∈ (rest.map MemTable.entries).flatten.map Prod.fst :=
        List.mem_map.mpr ⟨(k, v), hm, rfl⟩
      have hkc : k ∉ m.entries.map Prod.fst := fun hkc => hdisj hkc hkr
      simp [findFrozen, MemTable.get, skipGet_eq_none_iff.mpr hkc, ih hnd2 hm]

theorem findFrozen_of_not_mem :
    ∀ {ms : List MemTable} {k : Bytes},
      k ∉ (ms.map MemTable.entries).flatten.map Prod.fst →
      findFrozen ms k = none := by
  intro ms
  induction ms with
  | nil => intro k _; rfl
  | cons m rest ih =>
    intro k hk
    simp only [List.map_cons, List.flatten_cons, List.map_append,
      List.mem_append] at hk
    push_neg at hk
    obtain ⟨hk1, hk2⟩ := hk
    simp [findFrozen, MemTable.get, skipGet_eq_none_iff.mpr hk1, ih hk2]

theorem sstFind_of_mem :
    ∀ {ts : List SstModel} {k v : Bytes},
      (∀ t ∈ ts, List.Pairwise (fun a b => bytesLtB a.1 b.1 = true) t.entries) →
      ((ts.map SstModel.entries).flatten.map Prod.fst).Nodup →
      (k, v) ∈ (ts.map SstModel.entries).flatten →
      sstFind ts k = some v := by
  intro ts
  induction ts with
  | nil => intro k v _ _ hm; cases hm
  | cons t rest ih =>
    intro k v hts hnd hm
    simp only [List.map_cons, List.flatten_cons, List.map_append] at hnd hm
    rw [List.nodup_append] at hnd
    obtain ⟨hnd1, hnd2, hdisj⟩ := hnd
    have hts2 : ∀ t2 ∈ rest,
        List.Pairwise (fun a b => bytesLtB a.1 b.1 = true) t2.entries :=
      fun t2 ht2 => hts t2 (List.mem_cons_of_mem _ ht2)
    rcases List.mem_append.mp hm with hm | hm
    · have hsort := hts t (List.mem_cons_self _ _)
      have hgate : t.maybe_contains_key k = true := by
        unfold SstModel.maybe_contains_key SstModel.get_first_key SstModel.get_last_key
        rw [Bool.and_eq_true]
        exact ⟨sorted_headD_le hsort hm [], sorted_le_getLastD hsort hm []⟩
      have hseek : sstSeekToKey t.entries k = some (k, v) := find?_ge_of_mem hsort hm
      simp [sstFind, hgate, hseek]
    · have hkr : k ∈ (rest.map SstModel.entries).flatten.map Prod.fst :=
        List.mem_map.mpr ⟨(k, v), hm, rfl⟩
      have hkt : k ∉ t.entries.map Prod.fst := fun hkt => hdisj hkt hkr
      have htail := ih hts2 hnd2 hm
      by_cases hgate : t.maybe_contains_key k = true
      · cases hseek : sstSeekToKey t.entries k with
        | none => simp [sstFind, hgate, hseek, htail]
        | some e =>
          have hne : ¬e.1 = k := by
            intro he
            apply hkt
            have hmem : e ∈ t.entries := List.mem_of_find?_eq_some hseek
            exact he ▸ List.mem_map.mpr ⟨e, hmem, rfl⟩
          simp [sstFind, hgate, hseek, hne, htail]
      · simp [sstFind, hgate, htail]

theorem sstFind_of_not_mem :
    ∀ {ts : List SstModel} {k : Bytes},
      k ∉ (ts.map SstModel.entries).flatten.map Prod.fst →
      sstFind ts k = none := by
  intro ts
  induction ts with
  | nil => intro k _; rfl
  | cons t rest ih =>
    intro k hk
    simp only [List.map_cons, List.flatten_cons, List.map_append,
      List.mem_append] at hk
    push_neg at hk
    obtain ⟨hk1, hk2⟩ := hk
    have htail := ih hk2
    by_cases hgate : t.maybe_contains_key k = true
    · cases hseek : sstSeekToKey t.entries k with
      | none => simp [sstFind, hgate, hseek, htail]
      | some e =>
        have hne : ¬e.1 = k := by
          intro he
          apply hk1
          have hmem : e ∈ t.entries := List.mem_of_find?_eq_some hseek
          exact he ▸ List.mem_map.mpr ⟨e, hmem, rfl⟩
        simp [sstFind, hgate, hseek, hne, htail]
    · simp [sstFind, hgate, htail]

theorem get_found {s : StorageState} (hwf : WF s) {k v : Bytes}
    (hm : (k, v) ∈ allEntries s) :
    s.get k = if v = TOMBSTONE then none else some v := by
  have hnd := hwf.nodupKeys
  unfold allEntries at hm hnd
  simp only [List.map_append] at hnd
  rw [List.nodup_append] at hnd
  obtain ⟨hndm, hndS, hdisjS⟩ := hnd
  rw [List.nodup_append] at hndm
  obtain ⟨hndc, hndF, hdisjF⟩ := hndm
  rcases List.mem_append.mp hm with hm1 | hmS
  · rcases List.mem_append.mp hm1 with hmc | hmf
    · simp [StorageState.get, MemTable.get, skipGet_of_mem hndc hmc]
    · have hkF : k ∈ (s.frozenMemtables.map MemTable.entries).flatten.map Prod.fst :=
        List.mem_map.mpr ⟨(k, v), hmf, rfl⟩
      have hkc : k ∉ s.currentMemtable.entries.map Prod.fst :=
        fun hkc => hdisjF hkc hkF
      simp [StorageState.get, MemTable.get, skipGet_eq_none_iff.mpr hkc,
        findFrozen_of_mem hndF hmf]
  · have hkS : k ∈ (s.ssts.map SstModel.entries).flatten.map Prod.fst :=
      List.mem_map.mpr ⟨(k, v), hmS, rfl⟩
    have hkm : k ∉ s.currentMemtable.entries.map Prod.fst ++
        (s.frozenMemtables.map MemTable.entries).flatten.map Prod.fst :=
      fun hkm => hdisjS hkm hkS
    rw [List.mem_append] at hkm
    push_neg at hkm
    obtain ⟨hkc, hkF⟩ := hkm
    simp [StorageState.get, MemTable.get, skipGet_eq_none_iff.mpr hkc,
      findFrozen_of_not_mem hkF, sstFind_of_mem hwf.sstSorted hndS hmS]

theorem get_not_found {s : StorageState} {k : Bytes}
    (hk : k ∉ (allEntries s).map Prod.fst) : s.get k = none := by
  unfold allEntries at hk
  simp only [List.map_append, List.mem_append] at hk
  push_neg at hk
  obtain ⟨⟨hkc, hkF⟩, hkS⟩ := hk
  simp [StorageState.get, MemTable.get, skipGet_eq_none_iff.mpr hkc,
    findFrozen_of_not_mem hkF, sstFind_of_not_mem hkS]

theorem flush_allEntries (s : StorageState) :
    allEntries s.flushNextMemtableToL0 = allEntries s := by
  unfold StorageState.flushNextMemtableToL0
  cases hl : s.frozenMemtables.getLast? with
  | none => rfl
  | some m =>
    unfold allEntries
    conv_rhs => rw [← dropLast_append_of_getLast hl]
    simp [List.append_assoc]

theorem flush_WF {s : StorageState} (hwf : WF s) : WF s.flushNextMemtableToL0 := by
  have hnd : ((allEntries s.flushNextMemtableToL0).map Prod.fst).Nodup := by
    rw [flush_allEntries]; exact hwf.nodupKeys
  obtain ⟨h1, h2, h3, h4, h5, h6, h7, _⟩ := hwf
  revert hnd
  unfold StorageState.flushNextMemtableToL0
  cases hl : s.frozenMemtables.getLast? with
  | none => intro hnd; exact ⟨h1, h2, h3, h4, h5, h6, h7, hnd⟩
  | some m =>
    intro hnd
    have hm : m ∈ s.frozenMemtables := mem_of_getLast hl
    refine ⟨h1, h2, ?_, ?_, ?_, ?_, h7, hnd⟩
    · intro m2 hm2
      exact h3 m2 ((List.dropLast_prefix _).subset hm2)
    · intro t ht
      rcases List.mem_cons.mp ht with ht | ht
      · subst ht; exact h3 m hm
      · exact h4 t ht
    · intro m2 hm2
      exact h5 m2 ((List.dropLast_prefix _).subset hm2)
    · intro t ht
      rcases List.mem_cons.mp ht with ht | ht
      · subst ht; exact h5 m hm
      · exact h6 t ht

theorem rotatedPut_allEntries (s : StorageState) (k v : Bytes) :
    allEntries (rotatedPut s k v) = (k, v) :: allEntries s := by
  unfold rotatedPut allEntries
  simp [List.append_assoc]

theorem insertedPut_allEntries_perm (s : StorageState) (k v : Bytes)
    (hkc : k ∉ s.currentMemtable.entries.map Prod.fst) :
    List.Perm (allEntries (insertedPut s k v)) ((k, v) :: allEntries s) := by
  unfold insertedPut allEntries
  exact ((skipInsert_fresh_perm v hkc).append_right _).append_right _

theorem put_step {s : StorageState} {opts : StorageStateOptions} {k v : Bytes}
    (hwf : WF s) (hk : k ∉ (allEntries s).map Prod.fst) :
    ∃ s1, s.put opts k v = Except.ok s1 ∧ WF s1 ∧
      List.Perm (allEntries s1) ((k, v) :: allEntries s) := by
  have hkc : k ∉ s.currentMemtable.entries.map Prod.fst := fun hc =>
    hk (by unfold allEntries; simp only [List.map_append, List.mem_append]; tauto)
  unfold StorageState.put
  split_ifs with hc
  · -- rotation branch
    have hfr : s.freezeMemtable = Except.ok
        { currentMemtable := MemTable.new s.sstCounter,
          frozenMemtables :=
            { id := s.currentMemtable.id, entries := s.currentMemtable.entries,
              sizeBytes := s.currentMemtable.sizeBytes, mutableFlag := false } ::
            s.frozenMemtables,
          ssts := s.ssts, sstCounter := s.sstCounter + 1 } := by
      unfold StorageState.freezeMemtable MemTable.freeze
      simp [hwf.curMut]
    have hcne : s.currentMemtable.entries ≠ [] := by
      intro he
      have := hwf.curSize he
      omega
    refine ⟨rotatedPut s k v, ?_, ?_, ?_⟩
    · simp only [hfr]
      unfold StorageState.putCurrent MemTable.put MemTable.new rotatedPut
      simp [skipInsert]
    · refine ⟨rfl, by simp [rotatedPut, entSorted], ?_, hwf.sstSorted, ?_, hwf.sstNe, ?_, ?_⟩
      · intro m2 hm2
        rcases List.mem_cons.mp hm2 with hm2 | hm2
        · subst hm2; exact hwf.curSorted
        · exact hwf.frozenSorted m2 hm2
      · intro m2 hm2
        rcases List.mem_cons.mp hm2 with hm2 | hm2
        · subst hm2; exact hcne
        · exact hwf.frozenNe m2 hm2
      · intro he
        exact absurd he (by simp [rotatedPut])
      · rw [rotatedPut_allEntries]
        simp only [List.map_cons, List.nodup_cons]
        exact ⟨hk, hwf.nodupKeys⟩
    · rw [rotatedPut_allEntries]
  · -- plain insert branch
    refine ⟨insertedPut s k v, ?_, ?_, ?_⟩
    · unfold StorageState.putCurrent MemTable.put insertedPut
      simp [hwf.curMut]
    · refine ⟨?_, skipInsert_pairwise hwf.curSorted, hwf.frozenSorted,
        hwf.sstSorted, hwf.frozenNe, hwf.sstNe, ?_, ?_⟩
      · exact hwf.curMut
      · intro he
        exact absurd he (skipInsert_ne_nil _ _ _)
      · rw [((insertedPut_allEntries_perm s k v hkc).map Prod.fst).nodup_iff]
        simp only [List.map_cons, List.nodup_cons]
        exact ⟨hk, hwf.nodupKeys⟩
    · exact insertedPut_allEntries_perm s k v hkc

theorem initState_WF : WF initState := by
  refine ⟨rfl, ?_, ?_, ?_, ?_, ?_, ?_, ?_⟩ <;>
    simp [initState, MemTable.new, allEntries, entSorted]

theorem applyOps_inv {opts : StorageStateOptions} :
    ∀ (ops : List Op) (s0 s : StorageState), WF s0 →
      ((allEntries s0 ++ putsOf ops).map Prod.fst).Nodup →
      applyOps opts s0 ops = Except.ok s →
      WF s ∧ List.Perm (allEntries s) (allEntries s0 ++ putsOf ops) := by
  intro ops
  induction ops with
  | nil =>
    intro s0 s hwf _ hrun
    unfold applyOps at hrun
    injection hrun with hrun
    subst hrun
    exact ⟨hwf, by simp [putsOf]⟩
  | cons op rest ih =>
    intro s0 s hwf hnd hrun
    cases op with
    | flushOp =>
      have heq := flush_allEntries s0
      unfold applyOps applyOp at hrun
      simp only [] at hrun
      have hnd1 : ((allEntries s0.flushNextMemtableToL0 ++ putsOf rest).map Prod.fst).Nodup := by
        rw [heq]
        simpa [putsOf] using hnd
      obtain ⟨hwf1, hperm1⟩ := ih s0.flushNextMemtableToL0 s (flush_WF hwf) hnd1 hrun
      rw [heq] at hperm1
      exact ⟨hwf1, by simpa [putsOf] using hperm1⟩
    | putOp k v =>
      have hnd' := hnd
      simp only [putsOf, List.map_append, List.map_cons] at hnd'
      rw [List.nodup_append] at hnd'
      obtain ⟨hndA, hndP, hdisj⟩ := hnd'
      have hknot : k ∉ (allEntries s0).map Prod.fst :=
        fun hkA => hdisj hkA (List.mem_cons_self _ _)
      obtain ⟨s1, hps, hwf1, hperm1⟩ := @put_step s0 opts k v hwf hknot
      unfold applyOps applyOp at hrun
      simp only [hps] at hrun
      have hp2 : List.Perm (allEntries s1 ++ putsOf rest)
          (allEntries s0 ++ (k, v) :: putsOf rest) :=
        (List.Perm.append_right (putsOf rest) hperm1).trans List.perm_middle.symm
      have hnd1 : ((allEntries s1 ++ putsOf rest).map Prod.fst).Nodup := by
        rw [(hp2.map Prod.fst).nodup_iff]
        simpa [putsOf] using hnd
      obtain ⟨hwf2, hperm2⟩ := ih s1 s hwf1 hnd1 hrun
      refine ⟨hwf2, ?_⟩
      simp only [putsOf]
      exact hperm2.trans hp2

theorem kvLeB_of_kvLtB {a b : KeyValuePair} (h : kvLtB a b = true) :
    kvLeB a b = true := by
  rw [cmpLeB_iff]
  exact Or.inl (cmpLtB_iff.mp h)

theorem not_kvLtB_iff {a b : KeyValuePair} :
    kvLtB a b = false ↔ kvLeB b a = true := by
  unfold kvLtB kvLeB cmpLtB cmpLeB
  rw [kvCmp_swap a b]
  cases kvCmp a b <;> simp [Ordering.swap]

theorem kvLeB_of_key_lt {a b : Bytes × Bytes} (h : bytesLtB a.1 b.1 = true) :
    kvLeB (toKV a) (toKV b) = true := by
  have hcmp : kvCmp (toKV a) (toKV b) = Ordering.lt := by
    simp [kvCmp, tkCmp, toKV, TimestampedKey.new, bytesLtB_iff.mp h, Ordering.then]
  unfold kvLeB cmpLeB
  rw [hcmp]

theorem kvLeB_key_ne_lt {a b : KeyValuePair} (hle : kvLeB a b = true)
    (hne : a.key.key ≠ b.key.key) : bytesLtB a.key.key b.key.key = true := by
  rw [cmpLeB_iff] at hle
  rcases hle with hlt | heq
  · unfold kvCmp at hlt
    rw [Ordering.then_eq_lt_iff] at hlt
    rcases hlt with htk | ⟨htk, _⟩
    · unfold tkCmp at htk
      rw [Ordering.then_eq_lt_iff] at htk
      rcases htk with hkey | ⟨hkey, _⟩
      · exact bytesLtB_iff.mpr hkey
      · exact absurd (bytesCmp_eq_iff.mp hkey) hne
    · exact absurd (congrArg TimestampedKey.key (tkCmp_eq_iff.mp htk)) hne
  · exact absurd (congrArg (fun x => x.key.key) (kvCmp_eq_iff.mp heq)) hne

theorem twoMergeFuel_perm :
    ∀ (fuel : Nat) (xs ys : List KeyValuePair), xs.length + ys.length ≤ fuel →
      List.Perm (twoMergeFuel fuel xs ys) (xs ++ ys) := by
  intro fuel
  induction fuel with
  | zero =>
    intro xs ys hlen
    have hx : xs = [] := List.length_eq_zero.mp (by omega)
    have hy : ys = [] := List.length_eq_zero.mp (by omega)
    subst hx; subst hy
    simp [twoMergeFuel]
  | succ fuel ih =>
    intro xs ys hlen
    cases xs with
    | nil => simp [twoMergeFuel]
    | cons x xs2 =>
      cases ys with
      | nil => simp [twoMergeFuel]
      | cons y ys2 =>
        unfold twoMergeFuel
        split_ifs with h
        · exact List.Perm.cons x (ih xs2 (y :: ys2)
            (by simp only [List.length_cons] at hlen ⊢; omega))
        · refine (List.Perm.cons y (ih (x :: xs2) ys2
            (by simp only [List.length_cons] at hlen ⊢; omega))).trans ?_
          exact List.perm_middle.symm

theorem twoMergeFuel_pairwise :
    ∀ (fuel : Nat) (xs ys : List KeyValuePair), xs.length + ys.length ≤ fuel →
      List.Pairwise (fun a b => kvLeB a b = true) xs →
      List.Pairwise (fun a b => kvLeB a b = true) ys →
      List.Pairwise (fun a b => kvLeB a b = true) (twoMergeFuel fuel xs ys) := by
  intro fuel
  induction fuel with
  | zero => intro xs ys _ _ _; simp [twoMergeFuel]
  | succ fuel ih =>
    intro xs ys hlen hx hy
    cases xs with
    | nil => simpa [twoMergeFuel] using hy
    | cons x xs2 =>
      cases ys with
      | nil => simpa [twoMergeFuel] using hx
      | cons y ys2 =>
        rw [List.pairwise_cons] at hx hy
        obtain ⟨hxall, hx2⟩ := hx
        obtain ⟨hyall, hy2⟩ := hy
        have hlen1 : xs2.length + (y :: ys2).length ≤ fuel := by
          simp only [List.length_cons] at hlen ⊢; omega
        have hlen2 : (x :: xs2).length + ys2.length ≤ fuel := by
          simp only [List.length_cons] at hlen ⊢; omega
        unfold twoMergeFuel
        split_ifs with h
        · rw [List.pairwise_cons]
          constructor
          · intro b hb
            have hb2 : b ∈ xs2 ++ (y :: ys2) :=
              (twoMergeFuel_perm fuel xs2 (y :: ys2) hlen1).mem_iff.mp hb
            rcases List.mem_append.mp hb2 with hb2 | hb2
            · exact hxall b hb2
            · rcases List.mem_cons.mp hb2 with hb2 | hb2
              · subst hb2; exact kvLeB_of_kvLtB h
              · exact kvLeB_trans (kvLeB_of_kvLtB h) (hyall b hb2)
          · exact ih xs2 (y :: ys2) hlen1 hx2 (List.pairwise_cons.mpr ⟨hyall, hy2⟩)
        · have hyx : kvLeB y x = true := not_kvLtB_iff.mp (by simpa using h)
          rw [List.pairwise_cons]
          constructor
          · intro b hb
            have hb2 : b ∈ (x :: xs2) ++ ys2 :=
              (twoMergeFuel_perm fuel (x :: xs2) ys2 hlen2).mem_iff.mp hb
            rcases List.mem_append.mp hb2 with hb2 | hb2
            · rcases List.mem_cons.mp hb2 with hb2 | hb2
              · subst hb2; exact hyx
              · exact kvLeB_trans hyx (hxall b hb2)
            · exact hyall b hb2
          · exact ih (x :: xs2) ys2 hlen2 (List.pairwise_cons.mpr ⟨hxall, hx2⟩) hy2

theorem mergeAll_spec (streams : List (List KeyValuePair))
    (hsort : ∀ s ∈ streams, List.Chain' (fun a b => kvLeB a b = true) s) :
    List.Perm (mergeAll streams) streams.flatten ∧
      List.Pairwise (fun a b => kvLeB a b = true) (mergeAll streams) := by
  have h1 := mergeAllTagged_perm (totalLen streams) (le_refl _)
  have h2 := mergeAllTagged_sorted (totalLen streams) streams hsort (le_refl _)
  constructor
  · have hm := h1.map Prod.fst
    rw [taggedFrom_map_fst] at hm
    exact hm
  · unfold mergeAll
    rw [List.pairwise_map]
    exact h2.imp (fun h => hpLeB_fst h)

theorem memtable_scan_unbounded (m : MemTable) :
    m.scan Bound.unbounded Bound.unbounded = m.entries.map toKV := by
  unfold MemTable.scan inLower inUpper
  simp

theorem flatten_map_comp {α β γ : Type} (g : γ → List α) (f : α → β) (L : List γ) :
    (L.map (fun c => (g c).map f)).flatten = (L.map g).flatten.map f := by
  induction L with
  | nil => rfl
  | cons c rest ih => simp [ih]

theorem sst_lists_unbounded (ts : List SstModel) :
    (ts.filterMap (fun t =>
      if range_overlap Bound.unbounded Bound.unbounded
          (TimestampedKey.new t.get_first_key) (TimestampedKey.new t.get_last_key) then
        some (boundedTake Bound.unbounded ((sstScanFrom t.entries Bound.unbounded).map toKV))
      else none)) = ts.map (fun t => t.entries.map toKV) := by
  induction ts with
  | nil => rfl
  | cons t rest ih =>
    rw [List.filterMap_cons]
    simp [range_overlap, boundedTake, sstScanFrom]
    exact congrFun (List.filterMap_eq_map (fun t => List.map toKV t.entries)) rest

theorem entries_chain_toKV {l : List (Bytes × Bytes)}
    (h : List.Pairwise (fun a b => bytesLtB a.1 b.1 = true) l) :
    List.Chain' (fun a b => kvLeB a b = true) (l.map toKV) := by
  apply List.Pairwise.chain'
  rw [List.pairwise_map]
  exact h.imp (fun hab => kvLeB_of_key_lt hab)

theorem scan_unbounded {s : StorageState} (hwf : WF s) :
    List.Pairwise (fun a b => kvLeB a b = true)
        (s.scan Bound.unbounded Bound.unbounded) ∧
      List.Perm (s.scan Bound.unbounded Bound.unbounded) ((allEntries s).map toKV) := by
  have hMLsort : ∀ l ∈ (s.currentMemtable :: s.frozenMemtables).map
      (fun m => m.entries.map toKV), List.Chain' (fun a b => kvLeB a b = true) l := by
    intro l hl
    obtain ⟨m, hm, rfl⟩ := List.mem_map.mp hl
    rcases List.mem_cons.mp hm with hm | hm
    · subst hm; exact entries_chain_toKV hwf.curSorted
    · exact entries_chain_toKV (hwf.frozenSorted m hm)
  have hSLsort : ∀ l ∈ s.ssts.map (fun t => t.entries.map toKV),
      List.Chain' (fun a b => kvLeB a b = true) l := by
    intro l hl
    obtain ⟨t, ht, rfl⟩ := List.mem_map.mp hl
    exact entries_chain_toKV (hwf.sstSorted t ht)
  obtain ⟨hApm, hAsort⟩ := mergeAll_spec _ hMLsort
  obtain ⟨hBpm, hBsort⟩ := mergeAll_spec _ hSLsort
  have hscan : s.scan Bound.unbounded Bound.unbounded =
      twoMerge (mergeAll ((s.currentMemtable :: s.frozenMemtables).map
          (fun m => m.entries.map toKV)))
        (mergeAll (s.ssts.map (fun t => t.entries.map toKV))) := by
    unfold StorageState.scan
    rw [sst_lists_unbounded]
    simp only [memtable_scan_unbounded]
  rw [hscan]
  constructor
  · exact twoMergeFuel_pairwise _ _ _ (le_refl _) hAsort hBsort
  · have h1 : List.Perm
        (twoMerge (mergeAll ((s.currentMemtable :: s.frozenMemtables).map
            (fun m => m.entries.map toKV)))
          (mergeAll (s.ssts.map (fun t => t.entries.map toKV))))
        (mergeAll ((s.currentMemtable :: s.frozenMemtables).map
            (fun m => m.entries.map toKV)) ++
          mergeAll (s.ssts.map (fun t => t.entries.map toKV))) := by
      unfold twoMerge
      exact twoMergeFuel_perm _ _ _ (le_refl _)
    have h2 := hApm.append hBpm
    have h3 : ((s.currentMemtable :: s.frozenMemtables).map
          (fun m => m.entries.map toKV)).flatten ++
        (s.ssts.map (fun t => t.entries.map toKV)).flatten =
        (allEntries s).map toKV := by
      rw [flatten_map_comp MemTable.entries toKV, flatten_map_comp SstModel.entries toKV,
        ← List.map_append]
      unfold allEntries
      simp [List.append_assoc]
    rw [← h3]
    exact h1.trans h2

/-- C1 (amended): for every single-threaded sequence of `put`s with unique
keys and NONZERO-length values, interleaved with flushes to L0 (freezes
happen inside `put`), `get(k)` returns the put value for each put key k and
`none` for any other key, and a full unbounded `scan` yields exactly the put
keys in strictly ascending unsigned-lexicographic byte order.  The claim as
stated (without the nonzero-value restriction) is refuted by
`c1_counterexample`: a zero-length put value is the tombstone, and `get`
then answers `none` rather than the most recently put value.  The
consultation order — current memtable, then frozen memtables newest-first,
then L0 SSTs newest-first, first hit wins — is the structure of
`StorageState.get` (`findFrozen` / `sstFind`). -/
theorem c1_storage_engine (opts : StorageStateOptions) (ops : List Op) (s : StorageState)
    (huniq : ((putsOf ops).map Prod.fst).Nodup)
    (hvals : ∀ p ∈ putsOf ops, p.2 ≠ TOMBSTONE)
    (hrun : applyOps opts initState ops = Except.ok s) :
    (∀ k v, (k, v) ∈ putsOf ops → s.get k = some v) ∧
    (∀ k, k ∉ (putsOf ops).map Prod.fst → s.get k = none) ∧
    List.Pairwise (fun a b => bytesLtB a b = true)
      ((s.scan Bound.unbounded Bound.unbounded).map (fun kv => kv.key.key)) ∧
    List.Perm ((s.scan Bound.unbounded Bound.unbounded).map (fun kv => kv.key.key))
      ((putsOf ops).map Prod.fst) := by
  have hnd0 : ((allEntries initState ++ putsOf ops).map Prod.fst).Nodup := huniq
  obtain ⟨hwf, hperm⟩ := applyOps_inv ops initState s initState_WF hnd0 hrun
  have hperm2 : List.Perm (allEntries s) (putsOf ops) := hperm
  obtain ⟨hscansort, hscanperm⟩ := scan_unbounded hwf
  have hkeysperm : List.Perm
      ((s.scan Bound.unbounded Bound.unbounded).map (fun kv => kv.key.key))
      ((putsOf ops).map Prod.fst) := by
    have h1 := hscanperm.map (fun kv => kv.key.key)
    rw [List.map_map] at h1
    have h2 : ((fun kv : KeyValuePair => kv.key.key) ∘ toKV) = Prod.fst :=
      funext (fun e => rfl)
    rw [h2] at h1
    exact h1.trans (hperm2.map Prod.fst)
  refine ⟨?_, ?_, ?_, hkeysperm⟩
  · intro k v hm
    have hmem : (k, v) ∈ allEntries s := hperm2.mem_iff.mpr hm
    have hg := get_found hwf hmem
    rw [if_neg (hvals (k, v) hm)] at hg
    exact hg
  · intro k hk
    apply get_not_found
    intro hkin
    exact hk ((hperm2.map Prod.fst).mem_iff.mp hkin)
  · have hnd : ((s.scan Bound.unbounded Bound.unbounded).map
        (fun kv => kv.key.key)).Nodup := hkeysperm.nodup_iff.mpr huniq
    rw [List.pairwise_map]
    have hnd2 : List.Pairwise
        (fun a b : KeyValuePair => a.key.key ≠ b.key.key)
        (s.scan Bound.unbounded Bound.unbounded) := List.pairwise_map.mp hnd
    exact (hscansort.and hnd2).imp (fun hab => kvLeB_key_ne_lt hab.1 hab.2)

/-- C1 counterexample to the claim as stated: the sequence consisting of the
single put `[7] ↦ []` has unique keys, and the claim promises
`get [7] = some []` (the most recently put value); the code stores the
entry but `get` filters the zero-length value as the tombstone and answers
`none`. -/
theorem c1_counterexample :
    applyOps c1Opts initState [Op.putOp [7] []] = Except.ok
      { currentMemtable :=
          { id := 0, entries := [([7], [])], sizeBytes := 1, mutableFlag := true },
        frozenMemtables := [], ssts := [], sstCounter := 1 } ∧
    StorageState.get
      { currentMemtable :=
          { id := 0, entries := [([7], [])], sizeBytes := 1, mutableFlag := true },
        frozenMemtables := [], ssts := [], sstCounter := 1 } [7] = none ∧
    (none : Option Bytes) ≠ some [] := by decide

theorem c1_storage_engine_witness :
    (∀ k v, (k, v) ∈ putsOf c1Ops → c1FinalState.get k = some v) ∧
    (∀ k, k ∉ (putsOf c1Ops).map Prod.fst → c1FinalState.get k = none) ∧
    List.Pairwise (fun a b => bytesLtB a b = true)
      ((c1FinalState.scan Bound.unbounded Bound.unbounded).map (fun kv => kv.key.key)) ∧
    List.Perm
      ((c1FinalState.scan Bound.unbounded Bound.unbounded).map (fun kv => kv.key.key))
      ((putsOf c1Ops).map Prod.fst) :=
  c1_storage_engine c1Opts c1Ops c1FinalState (by decide) (by decide) (by decide)

theorem freezeMemtable_ok {s : StorageState}
    (hmut : s.currentMemtable.mutableFlag = true) :
    s.freezeMemtable = Except.ok
      { currentMemtable := MemTable.new s.sstCounter,
        frozenMemtables :=
          { id := s.currentMemtable.id, entries := s.currentMemtable.entries,
            sizeBytes := s.currentMemtable.sizeBytes, mutableFlag := false } ::
          s.frozenMemtables,
        ssts := s.ssts, sstCounter := s.sstCounter + 1 } := by
  unfold StorageState.freezeMemtable MemTable.freeze
  simp [hmut]

theorem putCurrent_ok {s : StorageState} (k v : Bytes)
    (hmut : s.currentMemtable.mutableFlag = true) :
    s.putCurrent k v = Except.ok (insertedPut s k v) := by
  unfold StorageState.putCurrent MemTable.put insertedPut
  simp [hmut]

theorem put_tombstone_get {opts : StorageStateOptions} {s : StorageState} {k : Bytes}
    (hmut : s.currentMemtable.mutableFlag = true) :
    ∃ s2, s.put opts k TOMBSTONE = Except.ok s2 ∧ s2.get k = none ∧
      s2.currentMemtable.get k = some TOMBSTONE := by
  unfold StorageState.put
  split_ifs with hc
  · simp only [freezeMemtable_ok hmut]
    rw [putCurrent_ok k TOMBSTONE rfl]
    refine ⟨_, rfl, ?_, ?_⟩
    · unfold StorageState.get MemTable.get insertedPut
      simp [skipGet_skipInsert_self, TOMBSTONE]
    · exact skipGet_skipInsert_self
  · rw [putCurrent_ok k TOMBSTONE hmut]
    refine ⟨_, rfl, ?_, ?_⟩
    · unfold StorageState.get MemTable.get insertedPut
      simp [skipGet_skipInsert_self, TOMBSTONE]
    · exact skipGet_skipInsert_self

/-- C2: `put(k, v)` freezes the current memtable and installs a fresh one
before inserting exactly when the current size is nonzero and
`size + len(k) + len(v) > sst_max_size_bytes`; otherwise it inserts into the
existing current memtable (in particular, the first entry into an empty
memtable — size 0 — is always accepted, however large). -/
theorem c2_put_rotation (opts : StorageStateOptions) (s : StorageState) (k v : Bytes)
    (hmut : s.currentMemtable.mutableFlag = true) :
    putRotationSpec s opts k v := by
  constructor
  · intro hc
    unfold StorageState.put
    rw [if_pos hc]
    simp only [freezeMemtable_ok hmut]
    rw [putCurrent_ok k v rfl]
    unfold insertedPut MemTable.new
    simp [skipInsert]
  · intro hc
    unfold StorageState.put
    rw [if_neg hc]
    rw [putCurrent_ok k v hmut]
    unfold insertedPut
    simp [hmut]

theorem c2_put_rotation_witness : putRotationSpec c2State ⟨2⟩ [7] [8] :=
  c2_put_rotation ⟨2⟩ c2State [7] [8] (by decide)

/-- C3: `delete(k)` fails with `KeyNotFound` exactly when `get(k)` is
`none`; otherwise it is the tombstone write `put(k, [])`, which succeeds, and
afterwards `get(k)` is `none` and a second `delete(k)` fails with
`KeyNotFound`. -/
theorem c3_delete (opts : StorageStateOptions) (s : StorageState) (k : Bytes)
    (hmut : s.currentMemtable.mutableFlag = true) :
    (s.get k = none → s.delete opts k = Except.error StorageError.keyNotFound) ∧
    (∀ v, s.get k = some v →
      s.delete opts k = s.put opts k TOMBSTONE ∧
      ∃ s2, s.put opts k TOMBSTONE = Except.ok s2 ∧
        s2.get k = none ∧
        s2.delete opts k = Except.error StorageError.keyNotFound) := by
  constructor
  · intro hget
    unfold StorageState.delete
    rw [hget]
  · intro v hget
    refine ⟨?_, ?_⟩
    · unfold StorageState.delete
      rw [hget]
    · obtain ⟨s2, hput, hget2, _⟩ := put_tombstone_get hmut
      refine ⟨s2, hput, hget2, ?_⟩
      unfold StorageState.delete
      rw [hget2]

theorem c3_delete_witness :
    (StorageState.get c3State [3] = none →
      StorageState.delete c3State ⟨10⟩ [3] = Except.error StorageError.keyNotFound) ∧
    (∀ v, StorageState.get c3State [3] = some v →
      StorageState.delete c3State ⟨10⟩ [3] = StorageState.put c3State ⟨10⟩ [3] TOMBSTONE ∧
      ∃ s2, StorageState.put c3State ⟨10⟩ [3] TOMBSTONE = Except.ok s2 ∧
        StorageState.get s2 [3] = none ∧
        StorageState.delete s2 ⟨10⟩ [3] = Except.error StorageError.keyNotFound) :=
  c3_delete ⟨10⟩ c3State [3] (by decide)

/-- C9: `put(k, v)` with the zero-length value (the tombstone) succeeds, the
entry is physically present in the current memtable
(`currentMemtable.get k = some []`), yet at the public interface the key is
indistinguishable from a deleted one: `get(k)` is `none` and `delete(k)`
fails with `KeyNotFound`. -/
theorem c9_tombstone_put (opts : StorageStateOptions) (s : StorageState) (k : Bytes)
    (hmut : s.currentMemtable.mutableFlag = true) :
    ∃ s2, s.put opts k TOMBSTONE = Except.ok s2 ∧
      s2.currentMemtable.get k = some TOMBSTONE ∧
      s2.get k = none ∧
      s2.delete opts k = Except.error StorageError.keyNotFound := by
  obtain ⟨s2, hput, hget, hcur⟩ := put_tombstone_get hmut
  refine ⟨s2, hput, hcur, hget, ?_⟩
  unfold StorageState.delete
  rw [hget]

theorem c9_tombstone_put_witness :
    ∃ s2, StorageState.put c9State ⟨5⟩ [9] TOMBSTONE = Except.ok s2 ∧
      s2.currentMemtable.get [9] = some TOMBSTONE ∧
      StorageState.get s2 [9] = none ∧
      StorageState.delete s2 ⟨5⟩ [9] = Except.error StorageError.keyNotFound :=
  c9_tombstone_put ⟨5⟩ c9State [9] (by decide)

theorem applyPuts_size :
    ∀ (ps : List (Bytes × Bytes)) (m m2 : MemTable), m.mutableFlag = true →
      applyPuts m ps = Except.ok m2 →
      m2.sizeBytes = m.sizeBytes + (ps.map (fun p => p.1.length + p.2.length)).sum := by
  intro ps
  induction ps with
  | nil =>
    intro m m2 _ h
    unfold applyPuts at h
    injection h with h
    subst h
    simp
  | cons p rest ih =>
    intro m m2 hmut h
    unfold applyPuts MemTable.put at h
    simp [hmut] at h
    have hs := ih _ m2 rfl h
    simp only [List.map_cons, List.sum_cons]
    simp at hs ⊢
    omega

/-- C10: every successful `MemTable::put` adds `len(key) + len(value)` to
the size counter even when the key is already present (the skip-map binding
is replaced but the counter still grows); hence after any sequence of
successful puts from a fresh memtable the size is the total over all puts,
it can strictly exceed the sum over the live entries (witnessed inline by
two puts of the same key), and the rotation decision of `StorageState::put`
is taken on exactly this accumulated size. -/
theorem c10_size_accounting (m : MemTable) (k v : Bytes)
    (hmut : m.mutableFlag = true) :
    (m.put k v = Except.ok
      { id := m.id, entries := skipInsert m.entries k v,
        sizeBytes := m.sizeBytes + (k.length + v.length),
        mutableFlag := m.mutableFlag }) ∧
    (∀ ps m2, applyPuts (MemTable.new 0) ps = Except.ok m2 →
      m2.sizeBytes = (ps.map (fun p => p.1.length + p.2.length)).sum) ∧
    (∃ m3, applyPuts (MemTable.new 0) [([1], [2]), ([1], [3])] = Except.ok m3 ∧
      (m3.entries.map (fun p => p.1.length + p.2.length)).sum < m3.sizeBytes) ∧
    (∀ (opts : StorageStateOptions) (s s2 : StorageState),
      s.put opts k v = Except.ok s2 →
      (s2.frozenMemtables.length = s.frozenMemtables.length + 1 ↔
        (0 < s.currentMemtable.sizeBytes ∧
          opts.sstMaxSizeBytes < s.currentMemtable.sizeBytes + (k.length + v.length)))) := by
  refine ⟨?_, ?_, ?_, ?_⟩
  · unfold MemTable.put
    simp [hmut]
  · intro ps m2 h
    have := applyPuts_size ps (MemTable.new 0) m2 rfl h
    simpa [MemTable.new] using this
  · exact ⟨{ id := 0, entries := [([1], [3])], sizeBytes := 4, mutableFlag := true },
      by decide, by decide⟩
  · intro opts s s2 hok
    unfold StorageState.put at hok
    split_ifs at hok with hcond
    · cases hmut2 : s.currentMemtable.mutableFlag with
      | false =>
        unfold StorageState.freezeMemtable MemTable.freeze at hok
        simp [hmut2] at hok
      | true =>
        simp only [freezeMemtable_ok hmut2] at hok
        rw [putCurrent_ok k v rfl] at hok
        injection hok with hok
        subst hok
        simp [insertedPut, hcond]
    · cases hmut2 : s.currentMemtable.mutableFlag with
      | false =>
        unfold StorageState.putCurrent MemTable.put at hok
        simp [hmut2] at hok
      | true =>
        rw [putCurrent_ok k v hmut2] at hok
        injection hok with hok
        subst hok
        constructor
        · intro hlen
          simp only [insertedPut] at hlen
          omega
        · intro hcc
          exact absurd hcc hcond

theorem c10_size_accounting_witness :
    (c10Mem.put [1] [2, 3] = Except.ok
      { id := c10Mem.id, entries := skipInsert c10Mem.entries [1] [2, 3],
        sizeBytes := c10Mem.sizeBytes + (List.length [1] + List.length [2, 3]),
        mutableFlag := c10Mem.mutableFlag }) ∧
    (∀ ps m2, applyPuts (MemTable.new 0) ps = Except.ok m2 →
      m2.sizeBytes = (ps.map (fun p => p.1.length + p.2.length)).sum) ∧
    (∃ m3, applyPuts (MemTable.new 0) [([1], [2]), ([1], [3])] = Except.ok m3 ∧
      (m3.entries.map (fun p => p.1.length + p.2.length)).sum < m3.sizeBytes) ∧
    (∀ (opts : StorageStateOptions) (s s2 : StorageState),
      s.put opts [1] [2, 3] = Except.ok s2 →
      (s2.frozenMemtables.length = s.frozenMemtables.length + 1 ↔
        (0 < s.currentMemtable.sizeBytes ∧
          opts.sstMaxSizeBytes <
            s.currentMemtable.sizeBytes + (List.length [1] + List.length [2, 3])))) :=
  c10_size_accounting c10Mem [1] [2, 3] (by decide)

end MiniLsm
